import Mathlib

/-!
Shallow embedding of the folium slide-DSL core (lexer, content parser,
style resolver, top-level loader) from src/ast.rs, src/style.rs,
src/error.rs and src/interpreter.rs.

Machine integers are modelled as Nat; the u32 id counter performs checked
arithmetic (a would-be overflow is a panic, mirroring checked overflow
semantics of the source's debug profile), likewise the u8 bracket counter
of the argument-list scan and the usize bracket counter of
split_child_elements.  Rust panics (assert failures, out-of-bounds
indexing, explicit panic! calls) are modelled as an explicit `panic`
outcome, distinct from errors returned as `Err`.
-/

namespace Folium

/-- Token location, 0-based line and column (interpreter.rs TokenLocation). -/
structure TokenLocation where
  line : Nat
  col : Nat
deriving DecidableEq, Repr

/-- SizeSpec from layout.rs (optional width and height, u32). -/
structure SizeSpec where
  width : Option Nat
  height : Option Nat
deriving DecidableEq, Repr

/-- PropertyValue from style.rs: tagged union of property values. -/
inductive PropertyValue where
  | Number (n : Nat)
  | String (s : String)
  | Boolean (b : Bool)
  | Colour (r g b : Nat)
  | SizeSpec (s : SizeSpec)
deriving DecidableEq, Repr

/-- Token from interpreter.rs. -/
inductive Token where
  | OpeningSlideParen
  | ClosingSlideParen
  | Definition
  | ValueAssignment
  | ListSeparator
  | StringDelim
  | OpeningArgsParen
  | ClosingArgsParen
  | OpeningParamsParen
  | ClosingParamsParen
  | Value (v : PropertyValue)
  | Ident (s : String)
deriving DecidableEq, Repr

/-- FatToken from interpreter.rs: a token together with its source location. -/
structure FatToken where
  token : Token
  location : TokenLocation
deriving DecidableEq, Repr

/-- RawToken from interpreter.rs: intermediate lexing state per character. -/
inductive RawToken where
  | AlreadyParsed (line_idx col_idx : Nat) (value : Token)
  | NotYetParsed (line_idx col_idx : Nat) (value : Char)
deriving DecidableEq, Repr

/-- ElementType from ast.rs. -/
inductive ElementType where
  | Row
  | Col
  | Centre
  | Padding
  | Text
  | Code
  | Image
  | ElNone
deriving DecidableEq, Repr

/-- ElementType::string_rep from ast.rs. -/
def ElementType.string_rep : ElementType → String
  | .Row => "row"
  | .Col => "col"
  | .Centre => "centre"
  | .Padding => "padding"
  | .Text => "text"
  | .Code => "code"
  | .Image => "image"
  | .ElNone => "none"

/-- TryFrom<&str> for ElementType from ast.rs (None encodes the Err case). -/
def ElementType.try_from : String → Option ElementType
  | "col" => some .Col
  | "row" => some .Row
  | "text" => some .Text
  | "code" => some .Code
  | "img" => some .Image
  | "none" => some .ElNone
  | "padding" => some .Padding
  | "centre" => some .Centre
  | _ => none

/-- FoliumError from error.rs. -/
inductive FoliumError where
  | UnknownType (location : TokenLocation) (offending_token : String)
  | UseOfContentTypeName (location : TokenLocation) (word : String)
  | ExpectedToken (location : TokenLocation) (expected got : Token)
  | ExpectedReason (location : TokenLocation) (expected : String) (got : Token)
  | UnexpectedFileEndWithToken (location : TokenLocation) (expected : Token)
  | UnexpectedFileEndWithReason (location : TokenLocation) (expected : String)
deriving DecidableEq, Repr

/-- Outcome of a fallible stage: a value, an error returned as Err, or a
process-aborting panic (optionally carrying the error that was printed
just before panicking, as in map_err followed by panic). -/
inductive PRes (α : Type) where
  | ok (a : α)
  | err (e : FoliumError)
  | panic (printed : Option FoliumError)
deriving DecidableEq, Repr

/-- Bind for PRes, propagating err and panic. -/
def PRes.bind {α β : Type} : PRes α → (α → PRes β) → PRes β
  | .ok a, f => f a
  | .err e, _ => .err e
  | .panic d, _ => .panic d

/-- AbstractElementData from ast.rs; ids are the u32 values of AbstractElementID. -/
inductive AbstractElementData where
  | Row (children : List Nat)
  | Col (children : List Nat)
  | Centre (child : Nat)
  | Padding (child : Nat)
  | Text (content : String)
  | Code (content : String)
  | Image (path : String)
  | None
deriving DecidableEq, Repr

/-- The child ids referenced inside one ElementData payload. -/
def AbstractElementData.childIds : AbstractElementData → List Nat
  | .Row cs => cs
  | .Col cs => cs
  | .Centre c => [c]
  | .Padding c => [c]
  | _ => []

/-- StyleTarget from style.rs. -/
inductive StyleTarget where
  | Named (name : String)
  | Anonymous (el_type : ElementType)
  | Slide
deriving DecidableEq, Repr

/-- Property maps (HashMap String PropertyValue) modelled as association
lists; lookup returns the first binding of a key. -/
abbrev Props := List (String × PropertyValue)

/-- First-binding association lookup on a property map. -/
def Props.lookup (ps : Props) (k : String) : Option PropertyValue :=
  match ps with
  | [] => none
  | (k1, v1) :: r => if k1 = k then some v1 else Props.lookup r k

/-- HashMap::insert on a property map: replace the first binding of the key
if present, otherwise append the new binding. -/
def Props.insert (ps : Props) (k : String) (v : PropertyValue) : Props :=
  match ps with
  | [] => [(k, v)]
  | (k1, v1) :: r => if k1 = k then (k, v) :: r else (k1, v1) :: Props.insert r k v

/-- HashMap entry(k).or_insert(v): insert the binding only when absent. -/
def Props.or_insert (ps : Props) (k : String) (v : PropertyValue) : Props :=
  if (ps.lookup k).isSome then ps else ps ++ [(k, v)]

/-- SLIDE_WIDTH constant from main.rs. -/
def SLIDE_WIDTH : Nat := 1920
/-- SLIDE_HEIGHT constant from main.rs. -/
def SLIDE_HEIGHT : Nat := 1080

/-- StyleTarget::default_style from style.rs. -/
def StyleTarget.default_style : StyleTarget → Props
  | .Named _ => []
  | .Anonymous el_type =>
    match el_type with
    | .Padding => [("amount", .Number 12)]
    | .Row => [("gap", .Number 32)]
    | .Col => [("gap", .Number 32)]
    | .Centre => []
    | .Text =>
      [("size", .Number 32), ("font", .String "Liberation Serif"),
       ("fill", .Colour 0 0 0)]
    | .Code =>
      [("bg", .Colour 30 30 30), ("fill", .Colour 255 255 255),
       ("margin", .Number 20), ("size", .Number 32),
       ("font", .String "Liberation Mono"), ("language", .String "rs")]
    | .Image => []
    | .ElNone => []
  | .Slide =>
    [("width", .Number SLIDE_WIDTH), ("height", .Number SLIDE_HEIGHT),
     ("margin", .Number 64), ("bg", .Colour 235 218 199)]

/-- StyleMap from style.rs: HashMap StyleTarget Props as an association list. -/
structure StyleMap where
  styles : List (StyleTarget × Props)
deriving DecidableEq, Repr

/-- StyleMap::new. -/
def StyleMap.new : StyleMap := ⟨[]⟩

/-- Target lookup in a style map (HashMap::get), first binding wins. -/
def StyleMap.lookup (m : StyleMap) (t : StyleTarget) : Option Props :=
  (m.styles.find? (fun p => p.1 = t)).map (fun p => p.2)

/-- StyleMap::styles_for_target from style.rs. -/
def StyleMap.styles_for_target (m : StyleMap) (t : StyleTarget) : Option Props :=
  m.lookup t

/-- Replace the first entry of a target, or append when absent
(HashMap::insert at the target level). -/
def setTarget (l : List (StyleTarget × Props)) (t : StyleTarget) (ps : Props) :
    List (StyleTarget × Props) :=
  match l with
  | [] => [(t, ps)]
  | (t1, p1) :: r => if t1 = t then (t, ps) :: r else (t1, p1) :: setTarget r t ps

/-- StyleMap::add_style from style.rs: a plain HashMap::insert, replacing
any property set already stored for the target. -/
def StyleMap.add_style (m : StyleMap) (t : StyleTarget) (ps : Props) : StyleMap :=
  ⟨setTarget m.styles t ps⟩

/-- The inner property loop of fill_in: or_insert every property. -/
def foldProps (ps : Props) (cur : Props) : Props :=
  ps.foldl (fun e kv => e.or_insert kv.1 kv.2) cur

/-- One target step of fill_in: fetch the in-progress entry (defaulting an
absent target to its default_style), then or_insert every property of the
`other` entry. -/
def fillStep (acc : StyleMap) (tp : StyleTarget × Props) : StyleMap :=
  ⟨setTarget acc.styles tp.1 (foldProps tp.2 ((acc.lookup tp.1).getD tp.1.default_style))⟩

/-- StyleMap::fill_in from style.rs. -/
def StyleMap.fill_in (m : StyleMap) (other : StyleMap) : StyleMap :=
  other.styles.foldl fillStep m

/-- Iteration order of strum's EnumIter on ElementType: declaration order. -/
def ElementType.iterOrder : List ElementType :=
  [.Row, .Col, .Centre, .Padding, .Text, .Code, .Image, .ElNone]

/-- StyleMap::default from style.rs: the Slide default plus each anonymous
element-type default. -/
def StyleMap.default : StyleMap :=
  ElementType.iterOrder.foldl
    (fun m el => m.add_style (.Anonymous el) (StyleTarget.Anonymous el).default_style)
    (StyleMap.new.add_style .Slide StyleTarget.Slide.default_style)

/-- Property lookup through a style map: target then property name. -/
def StyleMap.lookup2 (m : StyleMap) (t : StyleTarget) (k : String) :
    Option PropertyValue :=
  match m.lookup t with
  | some ps => ps.lookup k
  | none => none

/-- AbstractElement from ast.rs. -/
structure AbstractElement where
  data : AbstractElementData
  el_type : ElementType
  id : Nat
  name : Option String
deriving DecidableEq, Repr

/-- Slide from ast.rs. -/
structure Slide where
  id : Nat
  content : Nat
  styles : StyleMap
deriving DecidableEq, Repr

/-- Slide::style_map accessor. -/
def Slide.style_map (s : Slide) : StyleMap := s.styles

/-- GlobalState from ast.rs: id counter, slides, element arena. -/
structure GlobalState where
  unassigned_id : Nat
  slides : List Slide
  elements : List AbstractElement
deriving DecidableEq, Repr

/-- GlobalState::new. -/
def GlobalState.new : GlobalState := ⟨0, [], []⟩

/-- One past the largest u32 value; the id counter is a u32. -/
def U32_MOD : Nat := 4294967296

/-- GlobalState::generate_id: checked u32 increment of the counter; the
first generated id is 1.  Overflow of the u32 counter is a panic (None). -/
def GlobalState.generate_id (g : GlobalState) : Option (Nat × GlobalState) :=
  if g.unassigned_id + 1 < U32_MOD then
    some (g.unassigned_id + 1, { g with unassigned_id := g.unassigned_id + 1 })
  else
    none

/-- GlobalState::push_element: draw a fresh id and append the element. -/
def GlobalState.push_element (g : GlobalState) (data : AbstractElementData)
    (el_type : ElementType) (name : Option String) : Option (Nat × GlobalState) :=
  match g.generate_id with
  | some (id, g1) =>
    some (id, { g1 with elements := g1.elements ++ [⟨data, el_type, id, name⟩] })
  | none => none

/-- GlobalState::push_slide. -/
def GlobalState.push_slide (g : GlobalState) (s : Slide) : GlobalState :=
  { g with slides := g.slides ++ [s] }

/-- Slide::new from ast.rs: draw an id from the same counter. -/
def Slide.make (g : GlobalState) (content : Nat) (styles : StyleMap) :
    Option (Slide × GlobalState) :=
  match g.generate_id with
  | some (id, g1) => some (⟨id, content, styles⟩, g1)
  | none => none

/-- GlobalState::get_element_by_id: linear search of the arena. -/
def GlobalState.get_element_by_id (g : GlobalState) (id : Nat) :
    Option AbstractElement :=
  g.elements.find? (fun e => e.id = id)

/-- Split source text into lines at newline characters (str::lines). -/
def splitLinesAux : List Char → List Char → List (List Char)
  | [], acc => [acc.reverse]
  | c :: r, acc =>
    if c = '\n' then acc.reverse :: splitLinesAux r []
    else splitLinesAux r (c :: acc)

/-- Remove the trailing carriage return of a line, as str::lines does. -/
def stripCR (l : List Char) : List Char :=
  if l.getLast? = some '\r' then l.dropLast else l

/-- The lines of the source text as character lists. -/
def linesOf (source : String) : List (List Char) :=
  (splitLinesAux source.toList []).map stripCR

/-- line.starts_with of two slashes, the comment test used by load. -/
def begins_comment : List Char → Bool
  | '/' :: '/' :: _ => true
  | _ => false

/-- The character stream of load: lines are enumerated, lines passing the
comment test are removed (keeping original line indices), and each kept
line contributes its characters tagged with (line, column). -/
def allChars (lines : List (List Char)) : List (Nat × Nat × Char) :=
  ((lines.enum).filter (fun p => ¬ begins_comment p.2)).flatMap
    (fun p => (p.2.enum).map (fun q => (p.1, q.1, q.2)))

/-- Single-character structural tokens of the lexer. -/
def charToken (c : Char) : Option Token :=
  if c = '[' then some .OpeningSlideParen
  else if c = ']' then some .ClosingSlideParen
  else if c = '(' then some .OpeningArgsParen
  else if c = ')' then some .ClosingArgsParen
  else if c = '\x7b' then some .OpeningParamsParen
  else if c = '\x7d' then some .ClosingParamsParen
  else if c = '"' then some .StringDelim
  else if c = ',' then some .ListSeparator
  else none

/-- First lexing pass of load: each character becomes a RawToken; a colon
uses one-character lookahead to produce Definition for a double colon,
ValueAssignment otherwise. -/
def rawTokensGo : List (Nat × Nat × Char) → Option (Nat × Nat) → List RawToken
  | [], none => []
  | [], some (pl, pc) => [.AlreadyParsed pl pc .ValueAssignment]
  | (l, c, ch) :: rest, some (pl, pc) =>
    if ch = ':' then .AlreadyParsed pl pc .Definition :: rawTokensGo rest none
    else
      .AlreadyParsed pl pc .ValueAssignment ::
        (match charToken ch with
         | some t => .AlreadyParsed l c t :: rawTokensGo rest none
         | none => .NotYetParsed l c ch :: rawTokensGo rest none)
  | (l, c, ch) :: rest, none =>
    if ch = ':' then rawTokensGo rest (some (l, c))
    else
      match charToken ch with
      | some t => .AlreadyParsed l c t :: rawTokensGo rest none
      | none => .NotYetParsed l c ch :: rawTokensGo rest none

/-- The raw tokens of the located character stream. -/
def rawTokensOf (cs : List (Nat × Nat × Char)) : List RawToken :=
  rawTokensGo cs none

/-- Whether a raw token is a string delimiter. -/
def RawToken.isStringDelim : RawToken → Bool
  | .AlreadyParsed _ _ .StringDelim => true
  | _ => false

/-- The character of a not-yet-parsed raw token. -/
def RawToken.rawChar : RawToken → Option Char
  | .NotYetParsed _ _ c => some c
  | _ => none

/-- The bare-word continuation test of the lexer: a not-yet-parsed
character that is neither a space nor a comma. -/
def RawToken.isWordChar : RawToken → Bool
  | .NotYetParsed _ _ c => c ≠ ' ' && c ≠ ','
  | _ => false

/-- Numeric value of a decimal digit character. -/
def digitVal (c : Char) : Nat := c.toNat - '0'.toNat

/-- u32::from_str: optional leading plus sign, at least one digit, and the
value must fit in a u32. -/
def parse_u32 (cs : List Char) : Option Nat :=
  let ds := match cs with
    | '+' :: t => t
    | _ => cs
  if ds ≠ [] ∧ ds.all Char.isDigit then
    let n := ds.foldl (fun a c => a * 10 + digitVal c) 0
    if n < U32_MOD then some n else none
  else none

/-- bool::from_str: exactly the words true and false. -/
def parse_bool (cs : List Char) : Option Bool :=
  if cs = "true".toList then some true
  else if cs = "false".toList then some false
  else none

/-- is_ascii_hexdigit. -/
def isHexDigitCh (c : Char) : Bool :=
  c.isDigit || ('a' ≤ c && c ≤ 'f') || ('A' ≤ c && c ≤ 'F')

/-- Numeric value of a hexadecimal digit character. -/
def hexVal (c : Char) : Nat :=
  if c.isDigit then digitVal c
  else if 'a' ≤ c ∧ c ≤ 'f' then c.toNat - 'a'.toNat + 10
  else c.toNat - 'A'.toNat + 10

/-- Bare-word classification of the lexer: u32 number, then boolean, then
a hash sign followed by exactly six hex digits as a colour, else Ident. -/
def classify_word (cs : List Char) : Token :=
  match parse_u32 cs with
  | some n => .Value (.Number n)
  | none =>
    match parse_bool cs with
    | some b => .Value (.Boolean b)
    | none =>
      match cs with
      | '#' :: hs =>
        if cs.length = 7 ∧ hs.all isHexDigitCh then
          match hs with
          | [h1, h2, h3, h4, h5, h6] =>
            .Value (.Colour (16 * hexVal h1 + hexVal h2)
              (16 * hexVal h3 + hexVal h4) (16 * hexVal h5 + hexVal h6))
          | _ => .Ident (String.mk cs)
        else .Ident (String.mk cs)
      | _ => .Ident (String.mk cs)

/-- Second lexing pass of load, turning raw tokens into contiguous fat
tokens: a string delimiter collects the raw characters up to the matching
delimiter into one string value (raw tokens already parsed as structural
tokens inside the string are consumed and dropped); other already-parsed
tokens pass through; a bare word is the maximal run of raw characters that
are neither space nor comma, classified by classify_word. -/
inductive LexState where
  | normal
  | str (l c : Nat) (acc : List Char)
  | word (l c : Nat) (acc : List Char)
deriving DecidableEq, Repr

/-- The single left-to-right pass realising the skip-ahead loops of the
source: in string mode, raw characters are accumulated and already-parsed
tokens inside the string are consumed and dropped until the closing
delimiter; in word mode, raw characters that are neither space nor comma
are accumulated, and the boundary token is processed without being
consumed by the word. -/
def lexGo : List RawToken → LexState → List FatToken
  | [], .normal => []
  | [], .str l c acc => [⟨.Value (.String (String.mk acc.reverse)), ⟨l, c⟩⟩]
  | [], .word l c acc => [⟨classify_word acc.reverse, ⟨l, c⟩⟩]
  | t :: rest, .str l c acc =>
    match t with
    | .AlreadyParsed _ _ .StringDelim =>
      ⟨.Value (.String (String.mk acc.reverse)), ⟨l, c⟩⟩ :: lexGo rest .normal
    | .AlreadyParsed _ _ _ => lexGo rest (.str l c acc)
    | .NotYetParsed _ _ ch => lexGo rest (.str l c (ch :: acc))
  | t :: rest, .word l c acc =>
    match t with
    | .AlreadyParsed l2 c2 .StringDelim =>
      ⟨classify_word acc.reverse, ⟨l, c⟩⟩ :: lexGo rest (.str l2 c2 [])
    | .AlreadyParsed l2 c2 v =>
      ⟨classify_word acc.reverse, ⟨l, c⟩⟩ :: ⟨v, ⟨l2, c2⟩⟩ :: lexGo rest .normal
    | .NotYetParsed l2 c2 ch =>
      if ch = ' ' then ⟨classify_word acc.reverse, ⟨l, c⟩⟩ :: lexGo rest .normal
      else if ch = ',' then
        ⟨classify_word acc.reverse, ⟨l, c⟩⟩ ::
          ⟨classify_word [], ⟨l2, c2⟩⟩ :: lexGo rest .normal
      else lexGo rest (.word l c (ch :: acc))
  | t :: rest, .normal =>
    match t with
    | .AlreadyParsed l c .StringDelim => lexGo rest (.str l c [])
    | .AlreadyParsed l c v => ⟨v, ⟨l, c⟩⟩ :: lexGo rest .normal
    | .NotYetParsed l c ch =>
      if ch = ' ' then lexGo rest .normal
      else if ch = ',' then ⟨classify_word [], ⟨l, c⟩⟩ :: lexGo rest .normal
      else lexGo rest (.word l c [ch])

/-- Second lexing pass of load, turning raw tokens into contiguous fat
tokens: a string delimiter collects the raw characters up to the matching
delimiter into one string value (raw tokens already parsed as structural
tokens inside the string are consumed and dropped); other already-parsed
tokens pass through; a bare word is the maximal run of raw characters
that are neither space nor comma, classified by classify_word. -/
def lexContiguous (ts : List RawToken) : List FatToken :=
  lexGo ts .normal

/-- Slide grouping of load: slide-opening tokens are dropped, a
slide-closing token finishes the current group, and tokens after the last
closing token are discarded. -/
def groupSlidesGo : List FatToken → List FatToken → List (List FatToken)
  | [], _ => []
  | t :: rest, cur =>
    match t.token with
    | .OpeningSlideParen => groupSlidesGo rest cur
    | .ClosingSlideParen => cur :: groupSlidesGo rest []
    | _ => groupSlidesGo rest (cur ++ [t])

/-- Token groups of the slides of a source token stream. -/
def groupSlides (ts : List FatToken) : List (List FatToken) :=
  groupSlidesGo ts []

/-- The full lexing pipeline of load: comment-filtered located characters,
raw tokens, contiguous fat tokens. -/
def tokenize (source : String) : List FatToken :=
  lexContiguous (rawTokensOf (allChars (linesOf source)))

/-- Map over the value of a PRes. -/
def PRes.map {α β : Type} (r : PRes α) (f : α → β) : PRes β :=
  match r with
  | .ok a => .ok (f a)
  | .err e => .err e
  | .panic d => .panic d

/-- The argument-list scan of parse_content_definition: collect tokens
while the u8 bracket counter (entered at depth 1) stays positive; the
closing paren returning the counter to 0 is consumed but excluded, and the
tokens after it are returned as the remainder.  Incrementing the counter
past 255 is a u8 overflow panic. -/
def takeBody (ts : List FatToken) (brackets : Nat) :
    PRes (List FatToken × List FatToken) :=
  match ts with
  | [] => .ok ([], [])
  | t :: rest =>
    match t.token with
    | .OpeningArgsParen =>
      if brackets = 255 then .panic none
      else (takeBody rest (brackets + 1)).map (fun p => (t :: p.1, p.2))
    | .ClosingArgsParen =>
      if brackets = 1 then .ok ([], rest)
      else (takeBody rest (brackets - 1)).map (fun p => (t :: p.1, p.2))
    | _ => (takeBody rest brackets).map (fun p => (t :: p.1, p.2))

/-- Leading list-separator stripping applied to each child token group. -/
def stripLeadingComma (gr : List FatToken) : List FatToken :=
  match gr with
  | ⟨.ListSeparator, _⟩ :: r => r
  | _ => gr

/-- The take_while_inclusive loop of split_child_elements as one
left-to-right pass: `cur` is the reversed current group, `taken` records
whether an opening paren was taken in this group and `brackets` is the
usize depth; a group ends with (and includes) the closing paren that
returns the depth to 0 after a bracket was taken.  Decrementing the
counter at depth 0 is a usize underflow panic.  A nonempty group left at
the end of the input is kept; the loop stops at an empty group. -/
def splitChildAux (ts : List FatToken) (cur : List FatToken) (taken : Bool)
    (brackets : Nat) : PRes (List (List FatToken)) :=
  match ts with
  | [] => .ok (if cur = [] then [] else [stripLeadingComma cur.reverse])
  | t :: rest =>
    match t.token with
    | .OpeningArgsParen => splitChildAux rest (t :: cur) true (brackets + 1)
    | .ClosingArgsParen =>
      if brackets = 0 then .panic none
      else if brackets - 1 ≠ 0 ∨ taken = false then
        splitChildAux rest (t :: cur) taken (brackets - 1)
      else
        (splitChildAux rest [] false 0).map
          (fun gs => stripLeadingComma (t :: cur).reverse :: gs)
    | _ => splitChildAux rest (t :: cur) taken brackets

/-- split_child_elements from interpreter.rs: repeatedly take one
bracket-balanced group (ending at the closing paren that returns the
depth to 0), stop at an empty group, and strip a leading comma from each
group. -/
def split_child_elements (ts : List FatToken) : PRes (List (List FatToken)) :=
  splitChildAux ts [] false 0

/-- Sequential parsing of the child token groups of a row or col, with the
recursive content parser passed as an argument; each child parse failure
is a panic in the source. -/
def parseChildrenWith
    (p : List FatToken → GlobalState → PRes (Nat × GlobalState × List FatToken)) :
    List (List FatToken) → GlobalState → PRes (List Nat × GlobalState)
  | [], g => .ok ([], g)
  | grp :: rest, g =>
    match p grp g with
    | .err e => .panic (some e)
    | .panic d => .panic d
    | .ok (cid, g1, _) =>
      match parseChildrenWith p rest g1 with
      | .ok (cids, g2) => .ok (cid :: cids, g2)
      | .err e => .err e
      | .panic d => .panic d

/-- The body collection and per-type dispatch of parse_content_definition,
entered after the opening argument paren was consumed, with the recursive
content parser passed as an argument.  Child parse errors of centre,
padding, row and col are panics in the source (map_err followed by
panic), not propagated errors. -/
def parseBodyWith
    (p : List FatToken → GlobalState → PRes (Nat × GlobalState × List FatToken))
    (maybe_name : Option String) (el_type : ElementType)
    (rest : List FatToken) (g : GlobalState) :
    PRes (Nat × GlobalState × List FatToken) :=
  match takeBody rest 1 with
  | .err e => .err e
  | .panic d => .panic d
  | .ok (content_tokens, after) =>
    match el_type with
    | .ElNone =>
      match g.push_element .None el_type maybe_name with
      | some (id, g1) => .ok (id, g1, after)
      | none => .panic none
    | .Text =>
      match content_tokens with
      | ⟨.Value (.String s), _⟩ :: _ =>
        match g.push_element (.Text s) el_type maybe_name with
        | some (id, g1) => .ok (id, g1, after)
        | none => .panic none
      | _ => .panic none
    | .Code =>
      match content_tokens with
      | ⟨.Value (.String s), _⟩ :: _ =>
        match g.push_element (.Code s) el_type maybe_name with
        | some (id, g1) => .ok (id, g1, after)
        | none => .panic none
      | _ => .panic none
    | .Image =>
      match content_tokens with
      | ⟨.Value (.String s), _⟩ :: _ =>
        match g.push_element (.Image s) el_type maybe_name with
        | some (id, g1) => .ok (id, g1, after)
        | none => .panic none
      | _ => .panic none
    | .Centre =>
      match p content_tokens g with
      | .ok (cid, g1, _) =>
        match g1.push_element (.Centre cid) el_type maybe_name with
        | some (id, g2) => .ok (id, g2, after)
        | none => .panic none
      | .err e => .panic (some e)
      | .panic d => .panic d
    | .Padding =>
      match p content_tokens g with
      | .ok (cid, g1, _) =>
        match g1.push_element (.Padding cid) el_type maybe_name with
        | some (id, g2) => .ok (id, g2, after)
        | none => .panic none
      | .err e => .panic (some e)
      | .panic d => .panic d
    | .Row =>
      match split_child_elements content_tokens with
      | .err e => .err e
      | .panic d => .panic d
      | .ok groups =>
        match parseChildrenWith p groups g with
        | .ok (cids, g1) =>
          match g1.push_element (.Row cids) el_type maybe_name with
          | some (id, g2) => .ok (id, g2, after)
          | none => .panic none
        | .err e => .err e
        | .panic d => .panic d
    | .Col =>
      match split_child_elements content_tokens with
      | .err e => .err e
      | .panic d => .panic d
      | .ok groups =>
        match parseChildrenWith p groups g with
        | .ok (cids, g1) =>
          match g1.push_element (.Col cids) el_type maybe_name with
          | some (id, g2) => .ok (id, g2, after)
          | none => .panic none
        | .err e => .err e
        | .panic d => .panic d

/-- parse_content_definition from interpreter.rs: consume exactly one
element definition at the front of the token stream, push the parsed
elements into the arena and return the root id together with the
remaining tokens.  Recursion is fuel-indexed; exhausted fuel is a panic
(the source recursion always terminates, so any sufficiently large fuel
is faithful). -/
def parse_content_definition (fuel : Nat) (tokens : List FatToken)
    (g : GlobalState) : PRes (Nat × GlobalState × List FatToken) :=
  match fuel with
  | 0 => .panic none
  | fuel + 1 =>
    match tokens with
    | [] => .panic none
    | t0 :: rest0 =>
      match t0.token with
      | .Ident ident_val =>
        match ElementType.try_from ident_val with
        | some el_type =>
          match rest0 with
          | ⟨.Definition, location⟩ :: _ =>
            .err (.UseOfContentTypeName location el_type.string_rep)
          | ⟨.OpeningArgsParen, _⟩ :: rest1 =>
            parseBodyWith (parse_content_definition fuel) none el_type rest1 g
          | ⟨other, location⟩ :: _ =>
            .err (.ExpectedToken location .OpeningArgsParen other)
          | [] => .err (.UnexpectedFileEndWithToken t0.location .OpeningArgsParen)
        | none =>
          match rest0 with
          | ⟨.Definition, dloc⟩ :: rest1 =>
            match rest1 with
            | [] => .err (.UnexpectedFileEndWithReason dloc "a content type")
            | ⟨.Ident possibly_el_type, loc2⟩ :: rest2 =>
              match ElementType.try_from possibly_el_type with
              | some el_type =>
                match rest2 with
                | ⟨.OpeningArgsParen, _⟩ :: rest3 =>
                  parseBodyWith (parse_content_definition fuel) (some ident_val) el_type rest3 g
                | ⟨other, loc3⟩ :: _ =>
                  .err (.ExpectedToken loc3 .OpeningArgsParen other)
                | [] =>
                  .err (.UnexpectedFileEndWithToken t0.location .OpeningArgsParen)
              | none => .err (.UnknownType loc2 possibly_el_type)
            | ⟨other, loc2⟩ :: _ => .err (.ExpectedReason loc2 "a content type" other)
          | ⟨other, loc⟩ :: _ => .err (.ExpectedToken loc .Definition other)
          | [] => .err (.UnexpectedFileEndWithToken t0.location .Definition)
      | other => .err (.ExpectedReason t0.location "a content type or name" other)

/-- Chunking of the style property tokens (slice::chunks of width 4). -/
def chunksOf4 : List FatToken → List (List FatToken)
  | [] => []
  | [a] => [[a]]
  | [a, b] => [[a, b]]
  | [a, b, c] => [[a, b, c]]
  | a :: b :: c :: d :: rest => [a, b, c, d] :: chunksOf4 rest

/-- slice::split on the closing style-block token: separators removed,
empty pieces kept (they are filtered afterwards). -/
def splitOnClosingParams (ts : List FatToken) (cur : List FatToken) :
    List (List FatToken) :=
  match ts with
  | [] => [cur]
  | t :: rest =>
    match t.token with
    | .ClosingParamsParen => cur :: splitOnClosingParams rest []
    | _ => splitOnClosingParams rest (cur ++ [t])

/-- The per-chunk property parsing of load: slice the chunk to its first
three tokens (panicking when shorter), assert the middle one is a value
assignment, and read the Ident name and the Value; wrong tokens in the
name or value position are printed errors followed by a panic. -/
def parseProps (chunks : List (List FatToken)) (acc : Props) : PRes Props :=
  match chunks with
  | [] => .ok acc
  | chunk :: rest =>
    match chunk.take 3 with
    | [d0, d1, d2] =>
      if d1.token ≠ Token.ValueAssignment then .panic none
      else
        match d0.token with
        | .Ident s =>
          match d2.token with
          | .Value pv => parseProps rest (acc.insert s pv)
          | other => .panic (some (.ExpectedReason d2.location "a parameter value" other))
        | other => .panic (some (.ExpectedReason d0.location "a style directive" other))
    | _ => .panic none

/-- Processing of the non-empty style directive groups of one slide: the
first token names the target (a wrong token there is a returned error),
the group minus its first two tokens is parsed in chunks of four, and the
result is stored with add_style (a duplicate target silently replaces the
earlier property set). -/
def foldStyles (styles : List (List FatToken)) (m : StyleMap) : PRes StyleMap :=
  match styles with
  | [] => .ok m
  | st :: rest =>
    match st with
    | [] => .panic none
    | t0 :: _ =>
      match
        (match t0.token with
         | .Ident ident_val =>
           match ElementType.try_from ident_val with
           | some el_type => PRes.ok (StyleTarget.Anonymous el_type)
           | none =>
             if ident_val = "slide" then .ok .Slide
             else .ok (.Named ident_val)
         | other => .err (.ExpectedReason t0.location "a style target identifier" other))
      with
      | .err e => .err e
      | .panic d => .panic d
      | .ok target =>
        if st.length < 2 then .panic none
        else
          match parseProps (chunksOf4 (st.drop 2)) [] with
          | .err e => .err e
          | .panic d => .panic d
          | .ok props => foldStyles rest (m.add_style target props)

/-- The style phase of load for one slide: with no remaining tokens the
style map is exactly the global default map; otherwise the directives are
split on the closing style-block token, parsed, and the partial map is
filled in against the global defaults. -/
def parse_styles (remaining : List FatToken) : PRes StyleMap :=
  if remaining.isEmpty then .ok StyleMap.default
  else
    match foldStyles ((splitOnClosingParams remaining []).filter
        (fun s => ¬ s.isEmpty)) StyleMap.new with
    | .err e => .err e
    | .panic d => .panic d
    | .ok m => .ok (m.fill_in StyleMap.default)

/-- The per-slide loop of load: parse the root content definition (an
error there is printed and panics), resolve the styles from the remaining
tokens, create the Slide (drawing a fresh id) and append it. -/
def loadSlides (fuel : Nat) (groups : List (List FatToken)) (g : GlobalState) :
    PRes GlobalState :=
  match groups with
  | [] => .ok g
  | slide_tokens :: rest =>
    match parse_content_definition fuel slide_tokens g with
    | .err e => .panic (some e)
    | .panic d => .panic d
    | .ok (content_root_id, g1, remaining) =>
      match parse_styles remaining with
      | .err e => .err e
      | .panic d => .panic d
      | .ok style_map =>
        match Slide.make g1 content_root_id style_map with
        | some (slide, g2) => loadSlides fuel rest (g2.push_slide slide)
        | none => .panic none

/-- load from interpreter.rs: lex the whole source, group the tokens by
slide, then parse each slide's content and styles in order. -/
def load (fuel : Nat) (source : String) : PRes GlobalState :=
  loadSlides fuel (groupSlides (tokenize source)) GlobalState.new

/-- Whether a load outcome is a successfully returned document. -/
def PRes.isOk {α : Type} : PRes α → Bool
  | .ok _ => true
  | _ => false

/-- Whether a load outcome is an error returned as the Err value. -/
def PRes.isErr {α : Type} : PRes α → Bool
  | .err _ => true
  | _ => false

/-- The data of the arena element with the given id in a load outcome. -/
def elemDataAt (r : PRes GlobalState) (id : Nat) : Option AbstractElementData :=
  match r with
  | .ok g => (g.get_element_by_id id).map (fun e => e.data)
  | _ => none

/-- A resolved style property of the first slide of a load outcome. -/
def slideProp (r : PRes GlobalState) (t : StyleTarget) (k : String) :
    Option PropertyValue :=
  match r with
  | .ok g =>
    match g.slides with
    | s :: _ => s.styles.lookup2 t k
    | [] => none
  | _ => none

/-! Association-list lemmas for the style maps. -/

theorem Props.lookup_append_some (a b : Props) (k : String) (v : PropertyValue)
    (h : a.lookup k = some v) : Props.lookup (a ++ b) k = some v := by
  induction a with
  | nil => simp [Props.lookup] at h
  | cons hd tl ih =>
    rcases hd with ⟨k1, v1⟩
    by_cases hk : k1 = k
    · subst hk
      simp [Props.lookup] at h ⊢
      exact h
    · simp [Props.lookup, hk] at h ⊢
      exact ih h

theorem Props.lookup_append_none (a b : Props) (k : String)
    (h : a.lookup k = none) : Props.lookup (a ++ b) k = b.lookup k := by
  induction a with
  | nil => simp
  | cons hd tl ih =>
    rcases hd with ⟨k1, v1⟩
    by_cases hk : k1 = k
    · simp [Props.lookup, hk] at h
    · simp [Props.lookup, hk] at h ⊢
      exact ih h

theorem Props.or_insert_preserve (ps : Props) (k' : String) (v' : PropertyValue)
    (k : String) (v : PropertyValue) (h : ps.lookup k' = some v') :
    (ps.or_insert k v).lookup k' = some v' := by
  unfold Props.or_insert
  by_cases hp : (ps.lookup k).isSome
  · simp [hp, h]
  · simp [hp]
    exact Props.lookup_append_some ps [(k, v)] k' v' h

theorem Props.or_insert_isSome (ps : Props) (k : String) (v : PropertyValue)
    (k' : String) (h : (ps.lookup k').isSome) :
    ((ps.or_insert k v).lookup k').isSome := by
  rcases Option.isSome_iff_exists.mp h with ⟨v', hv⟩
  rw [Props.or_insert_preserve ps k' v' k v hv]
  rfl

theorem Props.or_insert_self_isSome (ps : Props) (k : String) (v : PropertyValue) :
    ((ps.or_insert k v).lookup k).isSome := by
  unfold Props.or_insert
  by_cases hp : (ps.lookup k).isSome
  · simpa [hp]
  · simp [hp]
    rw [Props.lookup_append_none ps [(k, v)] k (Option.not_isSome_iff_eq_none.mp hp)]
    simp [Props.lookup]

theorem Props.or_insert_of_present (ps : Props) (k : String) (v : PropertyValue)
    (h : (ps.lookup k).isSome) : ps.or_insert k v = ps := by
  simp [Props.or_insert, h]

theorem foldProps_preserve (ps cur : Props) (k : String) (v : PropertyValue)
    (h : cur.lookup k = some v) : (foldProps ps cur).lookup k = some v := by
  induction ps generalizing cur with
  | nil => simpa [foldProps]
  | cons hd tl ih =>
    simp only [foldProps, List.foldl_cons] at ih ⊢
    exact ih _ (Props.or_insert_preserve cur k v hd.1 hd.2 h)

theorem foldProps_isSome (ps cur : Props) (k : String)
    (h : (cur.lookup k).isSome) : ((foldProps ps cur).lookup k).isSome := by
  rcases Option.isSome_iff_exists.mp h with ⟨v, hv⟩
  rw [foldProps_preserve ps cur k v hv]
  rfl

theorem foldProps_keys (ps cur : Props) (k : String) (v : PropertyValue)
    (hmem : (k, v) ∈ ps) : ((foldProps ps cur).lookup k).isSome := by
  induction ps generalizing cur with
  | nil => simp at hmem
  | cons hd tl ih =>
    simp only [foldProps, List.foldl_cons] at ih ⊢
    rcases List.mem_cons.mp hmem with heq | hmem2
    · subst heq
      exact foldProps_isSome tl _ k (Props.or_insert_self_isSome cur k v)
    · exact ih _ hmem2

theorem foldProps_fill (ps cur : Props) (k : String) (v : PropertyValue)
    (hk : ps.lookup k = some v) (hcur : cur.lookup k = none) :
    (foldProps ps cur).lookup k = some v := by
  induction ps generalizing cur with
  | nil => simp [Props.lookup] at hk
  | cons hd tl ih =>
    rcases hd with ⟨k1, v1⟩
    simp only [foldProps, List.foldl_cons] at ih ⊢
    by_cases hk1 : k1 = k
    · subst hk1
      have hk2 : v1 = v := by simpa [Props.lookup] using hk
      subst hk2
      apply foldProps_preserve
      unfold Props.or_insert
      rw [hcur]
      simp only [Option.isSome_none, Bool.false_eq_true, if_false]
      rw [Props.lookup_append_none cur [(k1, v1)] k1 hcur]
      simp [Props.lookup]
    · simp only [Props.lookup, if_neg hk1] at hk
      apply ih _ hk
      unfold Props.or_insert
      by_cases hp : (cur.lookup k1).isSome
      · simpa [hp]
      · simp [hp]
        rw [Props.lookup_append_none cur [(k1, v1)] k hcur]
        simp [Props.lookup, hk1]

theorem foldProps_noop (ps cur : Props)
    (h : ∀ kv ∈ ps, (cur.lookup kv.1).isSome) : foldProps ps cur = cur := by
  induction ps with
  | nil => rfl
  | cons hd tl ih =>
    simp only [foldProps, List.foldl_cons]
    rw [Props.or_insert_of_present cur hd.1 hd.2 (h hd (List.mem_cons_self hd tl))]
    exact ih (fun kv hkv => h kv (List.mem_cons_of_mem hd hkv))

theorem lookup_setTarget_eq (l : List (StyleTarget × Props)) (t : StyleTarget)
    (ps : Props) : StyleMap.lookup ⟨setTarget l t ps⟩ t = some ps := by
  induction l with
  | nil => simp [setTarget, StyleMap.lookup, List.find?]
  | cons hd tl ih =>
    rcases hd with ⟨t1, p1⟩
    by_cases ht : t1 = t
    · simp [setTarget, ht, StyleMap.lookup, List.find?]
    · simpa [setTarget, ht, StyleMap.lookup, List.find?] using ih

theorem lookup_setTarget_ne (l : List (StyleTarget × Props)) (t t' : StyleTarget)
    (ps : Props) (h : t' ≠ t) :
    StyleMap.lookup ⟨setTarget l t ps⟩ t' = StyleMap.lookup ⟨l⟩ t' := by
  induction l with
  | nil => simp [setTarget, StyleMap.lookup, List.find?, Ne.symm h]
  | cons hd tl ih =>
    rcases hd with ⟨t1, p1⟩
    by_cases ht : t1 = t
    · subst ht
      simp [setTarget, StyleMap.lookup, List.find?, Ne.symm h]
    · by_cases ht' : t1 = t'
      · subst ht'
        simp [setTarget, ht, StyleMap.lookup, List.find?, h]
      · simpa [setTarget, ht, StyleMap.lookup, List.find?, ht'] using ih

theorem setTarget_self (l : List (StyleTarget × Props)) (t : StyleTarget)
    (ps : Props) (h : StyleMap.lookup ⟨l⟩ t = some ps) : setTarget l t ps = l := by
  induction l with
  | nil => simp [StyleMap.lookup, List.find?] at h
  | cons hd tl ih =>
    rcases hd with ⟨t1, p1⟩
    by_cases ht : t1 = t
    · subst ht
      simp [StyleMap.lookup, List.find?] at h
      simp [setTarget, h]
    · simp [StyleMap.lookup, List.find?, ht] at h
      simp only [setTarget, if_neg ht, List.cons.injEq, true_and]
      exact ih (by simpa [StyleMap.lookup] using h)

theorem lookup2_eq_some (m : StyleMap) (t : StyleTarget) (k : String)
    (v : PropertyValue) : m.lookup2 t k = some v ↔
    ∃ ps, m.lookup t = some ps ∧ ps.lookup k = some v := by
  unfold StyleMap.lookup2
  cases m.lookup t <;> simp

theorem fillStep_preserves (m : StyleMap) (tp : StyleTarget × Props)
    (t : StyleTarget) (k : String) (v : PropertyValue)
    (h : m.lookup2 t k = some v) : (fillStep m tp).lookup2 t k = some v := by
  rcases (lookup2_eq_some m t k v).mp h with ⟨cur, hcur, hk⟩
  rcases tp with ⟨t1, ps1⟩
  by_cases ht : t1 = t
  · subst ht
    apply (lookup2_eq_some _ _ _ _).mpr
    refine ⟨foldProps ps1 ((m.lookup t1).getD t1.default_style), ?_, ?_⟩
    · exact lookup_setTarget_eq m.styles t1 _
    · rw [hcur]
      exact foldProps_preserve ps1 cur k v hk
  · apply (lookup2_eq_some _ _ _ _).mpr
    refine ⟨cur, ?_, hk⟩
    rw [show (fillStep m (t1, ps1)).lookup t =
        StyleMap.lookup ⟨setTarget m.styles t1 (foldProps ps1
          ((m.lookup t1).getD t1.default_style))⟩ t from rfl]
    rw [lookup_setTarget_ne m.styles t1 t _ (fun hc => ht hc.symm)]
    exact hcur

theorem fold_preserves (l : List (StyleTarget × Props)) (m : StyleMap)
    (t : StyleTarget) (k : String) (v : PropertyValue)
    (h : m.lookup2 t k = some v) : (l.foldl fillStep m).lookup2 t k = some v := by
  induction l generalizing m with
  | nil => simpa
  | cons hd tl ih =>
    rw [List.foldl_cons]
    exact ih _ (fillStep_preserves m hd t k v h)

theorem fillStep_lookup_ne (m : StyleMap) (tp : StyleTarget × Props)
    (t : StyleTarget) (h : tp.1 ≠ t) : (fillStep m tp).lookup t = m.lookup t := by
  rcases tp with ⟨t1, ps1⟩
  rw [show (fillStep m (t1, ps1)).lookup t =
      StyleMap.lookup ⟨setTarget m.styles t1 (foldProps ps1
        ((m.lookup t1).getD t1.default_style))⟩ t from rfl]
  exact lookup_setTarget_ne m.styles t1 t _ (fun hc => h hc.symm)

theorem fold_fills (l : List (StyleTarget × Props)) (m : StyleMap)
    (t : StyleTarget) (k : String) (v : PropertyValue)
    (hmem : (t, t.default_style) ∈ l) (hk : t.default_style.lookup k = some v)
    (hnd : (l.map Prod.fst).Nodup) (hm : m.lookup2 t k = none) :
    (l.foldl fillStep m).lookup2 t k = some v := by
  induction l generalizing m with
  | nil => simp at hmem
  | cons hd tl ih =>
    rcases hd with ⟨t1, ps1⟩
    rw [List.foldl_cons]
    rcases List.mem_cons.mp hmem with heq | hmem2
    · have ht1 : t1 = t := (Prod.mk.injEq _ _ _ _).mp heq.symm |>.1
      subst ht1
      have hps1 : ps1 = t1.default_style := (Prod.mk.injEq _ _ _ _).mp heq.symm |>.2
      subst hps1
      apply fold_preserves
      apply (lookup2_eq_some _ _ _ _).mpr
      refine ⟨foldProps t1.default_style ((m.lookup t1).getD t1.default_style),
        lookup_setTarget_eq m.styles t1 _, ?_⟩
      cases hml : m.lookup t1 with
      | none =>
        simp only [hml, Option.getD_none]
        exact foldProps_preserve _ _ _ _ hk
      | some cur =>
        simp only [hml, Option.getD_some]
        have hcurk : cur.lookup k = none := by
          unfold StyleMap.lookup2 at hm
          rw [hml] at hm
          exact hm
        exact foldProps_fill _ _ _ _ hk hcurk
    · have ht1 : t1 ≠ t := by
        intro hc
        subst hc
        have : t1 ∈ tl.map Prod.fst :=
          List.mem_map.mpr ⟨(t1, t1.default_style), hmem2, rfl⟩
        simp only [List.map_cons, List.nodup_cons] at hnd
        exact hnd.1 this
      have hnd2 : (tl.map Prod.fst).Nodup := by
        simp only [List.map_cons, List.nodup_cons] at hnd
        exact hnd.2
      apply ih _ hmem2 hnd2
      unfold StyleMap.lookup2 at hm ⊢
      rw [fillStep_lookup_ne m (t1, ps1) t ht1]
      exact hm

theorem fillStep_keys_complete (m : StyleMap) (tp : StyleTarget × Props) :
    ∃ cur, (fillStep m tp).lookup tp.1 = some cur ∧
      ∀ kv ∈ tp.2, (Props.lookup cur kv.1).isSome := by
  rcases tp with ⟨t1, ps1⟩
  refine ⟨foldProps ps1 ((m.lookup t1).getD t1.default_style),
    lookup_setTarget_eq m.styles t1 _, ?_⟩
  intro kv hkv
  exact foldProps_keys ps1 _ kv.1 kv.2 hkv

theorem fold_lookup_untouched (l : List (StyleTarget × Props)) (m : StyleMap)
    (t : StyleTarget) (h : t ∉ l.map Prod.fst) :
    (l.foldl fillStep m).lookup t = m.lookup t := by
  induction l generalizing m with
  | nil => rfl
  | cons hd tl ih =>
    rw [List.foldl_cons]
    have hne : hd.1 ≠ t := by
      intro hc
      exact h (by simp only [List.map_cons, List.mem_cons]; exact Or.inl hc.symm)
    rw [ih _ (fun hc => h (by simp only [List.map_cons, List.mem_cons]; exact Or.inr hc))]
    exact fillStep_lookup_ne m hd t hne

theorem fold_target_complete (l : List (StyleTarget × Props)) (m : StyleMap)
    (t : StyleTarget) (ps : Props) (hmem : (t, ps) ∈ l)
    (hnd : (l.map Prod.fst).Nodup) :
    ∃ cur, (l.foldl fillStep m).lookup t = some cur ∧
      ∀ kv ∈ ps, (Props.lookup cur kv.1).isSome := by
  induction l generalizing m with
  | nil => simp at hmem
  | cons hd tl ih =>
    rcases hd with ⟨t1, ps1⟩
    rw [List.foldl_cons]
    rcases List.mem_cons.mp hmem with heq | hmem2
    · have ht1 : t1 = t := (Prod.mk.injEq _ _ _ _).mp heq.symm |>.1
      subst ht1
      have hps1 : ps1 = ps := (Prod.mk.injEq _ _ _ _).mp heq.symm |>.2
      subst hps1
      have ht1nin : t1 ∉ tl.map Prod.fst := by
        simp only [List.map_cons, List.nodup_cons] at hnd
        exact hnd.1
      rcases fillStep_keys_complete m (t1, ps1) with ⟨cur, hcur, hkeys⟩
      refine ⟨cur, ?_, hkeys⟩
      rw [fold_lookup_untouched tl _ t1 ht1nin]
      exact hcur
    · exact ih (fillStep m (t1, ps1)) hmem2 (by
        simp only [List.map_cons, List.nodup_cons] at hnd
        exact hnd.2)

theorem fold_id_of_complete (l : List (StyleTarget × Props)) (m : StyleMap)
    (h : ∀ tp ∈ l, ∃ cur, m.lookup tp.1 = some cur ∧
      ∀ kv ∈ tp.2, (Props.lookup cur kv.1).isSome) :
    l.foldl fillStep m = m := by
  induction l with
  | nil => rfl
  | cons hd tl ih =>
    rw [List.foldl_cons]
    have hstep : fillStep m hd = m := by
      rcases h hd (List.mem_cons_self hd tl) with ⟨cur, hcur, hkeys⟩
      unfold fillStep
      rw [hcur]
      simp only [Option.getD_some]
      rw [foldProps_noop hd.2 cur hkeys]
      rcases m with ⟨ml⟩
      exact congrArg StyleMap.mk (setTarget_self ml hd.1 cur hcur)
    rw [hstep]
    exact ih (fun tp htp => h tp (List.mem_cons_of_mem hd htp))

/-- The targets of the global default map are pairwise distinct. -/
theorem default_targets_nodup :
    (StyleMap.default.styles.map Prod.fst).Nodup := by decide

/-- Every entry of the global default map stores exactly the default style
of its target. -/
theorem default_entry_mem (t : StyleTarget) (ps : Props)
    (h : StyleMap.default.lookup t = some ps) :
    ps = t.default_style ∧ (t, t.default_style) ∈ StyleMap.default.styles := by
  cases t with
  | Named s =>
    rw [show StyleMap.default.lookup (.Named s) = none from rfl] at h
    cases h
  | Slide =>
    exact ⟨Option.some_inj.mp (by rw [← h]; rfl), by decide⟩
  | Anonymous e =>
    cases e <;> exact ⟨Option.some_inj.mp (by rw [← h]; rfl), by decide⟩


/-- Claim C3: the fill-in merge of a parsed slide's style map against the
global defaults never overwrites a property the user set explicitly and
inserts every default property the user omitted; for load of
"[ none() slide \x7b height: 500 \x7d ]" the resolved Slide style has
height = Number 500 and width = Number 1920 simultaneously. -/
theorem C3_fill_in_merge :
    (∀ (m : StyleMap) (t : StyleTarget) (k : String) (v : PropertyValue),
        m.lookup2 t k = some v →
        (m.fill_in StyleMap.default).lookup2 t k = some v) ∧
    (∀ (m : StyleMap) (t : StyleTarget) (k : String) (v : PropertyValue),
        StyleMap.default.lookup2 t k = some v → m.lookup2 t k = none →
        (m.fill_in StyleMap.default).lookup2 t k = some v) ∧
    slideProp (load 32 "[ none() slide \x7b height: 500 \x7d ]") .Slide "height" =
      some (.Number 500) ∧
    slideProp (load 32 "[ none() slide \x7b height: 500 \x7d ]") .Slide "width" =
      some (.Number 1920) := by
  refine ⟨?_, ?_, by decide, by decide⟩
  · intro m t k v h
    exact fold_preserves StyleMap.default.styles m t k v h
  · intro m t k v hd hm
    rcases (lookup2_eq_some _ _ _ _).mp hd with ⟨ps, hps, hk⟩
    rcases default_entry_mem t ps hps with ⟨hpseq, hmem⟩
    subst hpseq
    exact fold_fills StyleMap.default.styles m t k v hmem hk
      default_targets_nodup hm

/-- Witness for C3 at a concrete partial map with only Slide height set. -/
theorem C3_fill_in_merge_witness :
    ((StyleMap.mk [(.Slide, [("height", .Number 500)])]).fill_in
        StyleMap.default).lookup2 .Slide "height" = some (.Number 500) ∧
    ((StyleMap.mk [(.Slide, [("height", .Number 500)])]).fill_in
        StyleMap.default).lookup2 .Slide "width" = some (.Number 1920) :=
  ⟨C3_fill_in_merge.1 (StyleMap.mk [(.Slide, [("height", .Number 500)])])
      .Slide "height" (.Number 500) (by decide),
   C3_fill_in_merge.2.1 (StyleMap.mk [(.Slide, [("height", .Number 500)])])
      .Slide "width" (.Number 1920) (by decide) (by decide)⟩

/-- Claim C9: resolving styles a second time with the same global defaults
is idempotent: fill-in applied again to an already filled-in map yields
the identical map. -/
theorem C9_fill_in_idempotent (m : StyleMap) :
    (m.fill_in StyleMap.default).fill_in StyleMap.default =
      m.fill_in StyleMap.default := by
  apply fold_id_of_complete
  intro tp htp
  exact fold_target_complete StyleMap.default.styles m tp.1 tp.2 htp
    default_targets_nodup

/-- Witness for C9 at the empty partial style map. -/
theorem C9_fill_in_idempotent_witness :
    (StyleMap.new.fill_in StyleMap.default).fill_in StyleMap.default =
      StyleMap.new.fill_in StyleMap.default :=
  C9_fill_in_idempotent StyleMap.new


/-- Counterexample to claim C1 as stated: loading a slide whose trailing
style directives define the Slide target twice succeeds; there is no
duplicate-style-definition error. -/
theorem C1_counterexample :
    (load 32 "[ none() slide\x7bwidth:1\x7d slide\x7bheight:2\x7d ]").isOk
      = true := by decide

/-- Claim C1 amended: add_style is a plain map insert, so a style
directive for a target already present silently replaces the earlier
property set (the last directive wins); load succeeds, the height comes
from the second directive, and the discarded width is refilled from the
default 1920.  In general, adding twice for the same target stores
exactly the second property set. -/
theorem C1_amended :
    (load 32 "[ none() slide\x7bwidth:1\x7d slide\x7bheight:2\x7d ]").isOk
      = true ∧
    slideProp (load 32 "[ none() slide\x7bwidth:1\x7d slide\x7bheight:2\x7d ]")
      .Slide "height" = some (.Number 2) ∧
    slideProp (load 32 "[ none() slide\x7bwidth:1\x7d slide\x7bheight:2\x7d ]")
      .Slide "width" = some (.Number 1920) ∧
    (∀ (m : StyleMap) (t : StyleTarget) (ps1 ps2 : Props),
        ((m.add_style t ps1).add_style t ps2).lookup t = some ps2) := by
  refine ⟨by decide, by decide, by decide, ?_⟩
  intro m t ps1 ps2
  exact lookup_setTarget_eq _ t ps2

/-- Witness for the general last-directive-wins part of C1 amended. -/
theorem C1_amended_witness :
    ((StyleMap.new.add_style .Slide [("width", .Number 1)]).add_style .Slide
        [("height", .Number 2)]).lookup .Slide = some [("height", .Number 2)] :=
  C1_amended.2.2.2 StyleMap.new .Slide [("width", .Number 1)]
    [("height", .Number 2)]

/-- Counterexample to claim C2 as stated: for the malformed source
"[ joop :: none ]" load does not return the parse error as an Err value;
it prints the error and panics (aborting the process). -/
theorem C2_counterexample :
    load 32 "[ joop :: none ]" =
      .panic (some (.UnexpectedFileEndWithToken ⟨0, 2⟩ .OpeningArgsParen)) ∧
    (load 32 "[ joop :: none ]").isErr = false := by decide

/-- Claim C2 amended: parse_content_definition itself returns the
end-of-file error referencing the expected opening argument paren, with
the location of the offending name token, but load converts that Err into
an eprintln followed by a panic instead of propagating it; no document is
produced. -/
theorem C2_amended :
    parse_content_definition 32
      [⟨.Ident "joop", ⟨0, 2⟩⟩, ⟨.Definition, ⟨0, 7⟩⟩, ⟨.Ident "none", ⟨0, 10⟩⟩]
      GlobalState.new =
      .err (.UnexpectedFileEndWithToken ⟨0, 2⟩ .OpeningArgsParen) ∧
    groupSlides (tokenize "[ joop :: none ]") =
      [[⟨.Ident "joop", ⟨0, 2⟩⟩, ⟨.Definition, ⟨0, 7⟩⟩, ⟨.Ident "none", ⟨0, 10⟩⟩]] ∧
    load 32 "[ joop :: none ]" =
      .panic (some (.UnexpectedFileEndWithToken ⟨0, 2⟩ .OpeningArgsParen)) := by
  refine ⟨by decide, by decide, by decide⟩

/-- Counterexample to claim C4 as stated: a string literal containing a
character that lexes as a structural token (here the comma) is NOT
collected verbatim; the comma is dropped from the collected string. -/
theorem C4_counterexample :
    elemDataAt (load 32 "[ text(\"a,b\") ]") 1 = some (.Text "ab") ∧
    elemDataAt (load 32 "[ text(\"a,b\") ]") 1 ≠ some (.Text "a,b") := by decide

/-- Counterexample to claim C5 as stated: a comment line with leading
indentation is NOT excluded; the line " // x" whose first non-whitespace
characters are the two slashes still produces tokens. -/
theorem C5_counterexample :
    tokenize " // x" = [⟨.Ident "//", ⟨0, 1⟩⟩, ⟨.Ident "x", ⟨0, 4⟩⟩] := by decide

/-- Counterexample to claim C6 as stated: the child list of a row body is
split even when the body contains no comma token at all — splitting is by
bracket-balanced groups, not by depth-0 commas — so commas are not the
only thing that splits the child list. -/
theorem C6_counterexample :
    (tokenize "[ row( text(\"a\") text(\"b\") ) ]").all
      (fun t => t.token ≠ .ListSeparator) = true ∧
    elemDataAt (load 32 "[ row( text(\"a\") text(\"b\") ) ]") 3 =
      some (.Row [1, 2]) := by decide

/-- Claim C6 amended: a row or col body is split into bracket-balanced
groups, each child group ending at the closing paren that returns its
depth to 0 (a depth-0 comma merely starts the next group and is
stripped); consequently commas nested inside a child's own argument list
never split the parent's child list, and the example yields a Row with
exactly the two children 1 and 4, the second being a Col with exactly the
two children 2 and 3. -/
theorem C6_nested_commas :
    elemDataAt (load 32 "[ row( text(\"a\"), col( text(\"b\"), text(\"c\") ) ) ]") 5
      = some (.Row [1, 4]) ∧
    elemDataAt (load 32 "[ row( text(\"a\"), col( text(\"b\"), text(\"c\") ) ) ]") 4
      = some (.Col [2, 3]) ∧
    elemDataAt (load 32 "[ row( text(\"a\"), col( text(\"b\"), text(\"c\") ) ) ]") 1
      = some (.Text "a") ∧
    elemDataAt (load 32 "[ row( text(\"a\"), col( text(\"b\"), text(\"c\") ) ) ]") 2
      = some (.Text "b") ∧
    elemDataAt (load 32 "[ row( text(\"a\"), col( text(\"b\"), text(\"c\") ) ) ]") 3
      = some (.Text "c") := by decide


theorem lexGo_str_append (toks rest : List RawToken) (l c l2 c2 : Nat)
    (acc : List Char) (h : ∀ t ∈ toks, (RawToken.rawChar t).isSome) :
    lexGo (toks ++ .AlreadyParsed l2 c2 .StringDelim :: rest) (.str l c acc) =
      ⟨.Value (.String (String.mk
          (acc.reverse ++ toks.filterMap RawToken.rawChar))), ⟨l, c⟩⟩ ::
        lexGo rest .normal := by
  induction toks generalizing acc with
  | nil => simp [lexGo]
  | cons t ts ih =>
    rcases t with ⟨tl, tc, tv⟩ | ⟨tl, tc, tch⟩
    · exact absurd (h _ (List.mem_cons_self _ _)) (by simp [RawToken.rawChar])
    · rw [List.cons_append,
        show lexGo (RawToken.NotYetParsed tl tc tch ::
            (ts ++ RawToken.AlreadyParsed l2 c2 .StringDelim :: rest))
            (.str l c acc) =
          lexGo (ts ++ RawToken.AlreadyParsed l2 c2 .StringDelim :: rest)
            (.str l c (tch :: acc)) from rfl,
        ih _ (fun t ht => h t (List.mem_cons_of_mem _ ht))]
      simp [RawToken.rawChar, List.filterMap_cons]

/-- Claim C4 amended: the text between a pair of string delimiters is
collected into one string Value token carrying the opening delimiter's
location, and the delimiters themselves are not retained; however, only
the raw (not-yet-parsed) characters are kept — characters that lexed as
structural tokens are dropped, and the remaining characters (embedded
spaces included) appear verbatim.  For contents free of structural
characters, such as the example string, collection is exactly verbatim. -/
theorem C4_amended (l c l2 c2 : Nat) (toks rest : List RawToken)
    (h : ∀ t ∈ toks, (RawToken.rawChar t).isSome) :
    lexGo (.AlreadyParsed l c .StringDelim ::
        (toks ++ .AlreadyParsed l2 c2 .StringDelim :: rest)) .normal =
      ⟨.Value (.String (String.mk (toks.filterMap RawToken.rawChar))), ⟨l, c⟩⟩ ::
        lexGo rest .normal ∧
    elemDataAt (load 32 "[ text(\"jakob en zonen\") ]") 1 =
      some (.Text "jakob en zonen") := by
  constructor
  · rw [show lexGo (.AlreadyParsed l c .StringDelim ::
          (toks ++ .AlreadyParsed l2 c2 .StringDelim :: rest)) .normal =
        lexGo (toks ++ .AlreadyParsed l2 c2 .StringDelim :: rest)
          (.str l c []) from rfl,
      lexGo_str_append toks rest l c l2 c2 [] h]
    simp
  · decide

/-- A run of raw characters on one line with consecutive columns. -/
def rawCharsOfLine (l : Nat) (start : Nat) (cs : List Char) : List RawToken :=
  match cs with
  | [] => []
  | ch :: r => .NotYetParsed l start ch :: rawCharsOfLine l (start + 1) r

/-- Witness for C4 amended at the example string contents. -/
theorem C4_amended_witness :
    lexGo (.AlreadyParsed 0 7 .StringDelim ::
        (rawCharsOfLine 0 8 "jakob en zonen".toList ++
          .AlreadyParsed 0 22 .StringDelim :: [])) .normal =
      [⟨.Value (.String "jakob en zonen"), ⟨0, 7⟩⟩] := by
  rw [(C4_amended 0 7 0 22 (rawCharsOfLine 0 8 "jakob en zonen".toList) []
      (by decide)).1]
  decide


/-- The line index a raw token was created from. -/
def RawToken.lineIdx : RawToken → Nat
  | .AlreadyParsed l _ _ => l
  | .NotYetParsed l _ _ => l

/-- The line indices remembered inside a lexer state. -/
def LexState.lineIdxs : LexState → List Nat
  | .normal => []
  | .str l _ _ => [l]
  | .word l _ _ => [l]

theorem lexGo_line_origin (ts : List RawToken) (st : LexState) :
    ∀ ft ∈ lexGo ts st,
      ft.location.line ∈ st.lineIdxs ∨
        ∃ rt ∈ ts, ft.location.line = rt.lineIdx := by
  induction ts generalizing st with
  | nil =>
    intro ft h
    left
    cases st with
    | normal => simp [lexGo] at h
    | str l c acc =>
      simp only [lexGo, List.mem_singleton] at h
      subst h
      simp [LexState.lineIdxs]
    | word l c acc =>
      simp only [lexGo, List.mem_singleton] at h
      subst h
      simp [LexState.lineIdxs]
  | cons t rest ih =>
    intro ft h
    have lift : ∀ (st2 : LexState), ft ∈ lexGo rest st2 →
        st2.lineIdxs ⊆ t.lineIdx :: rest.map RawToken.lineIdx →
        ft.location.line ∈ st.lineIdxs ∨
          ∃ rt ∈ t :: rest, ft.location.line = rt.lineIdx := by
      intro st2 hmem hsub
      rcases ih st2 ft hmem with hl | ⟨rt, hrt, he⟩
      · right
        rcases List.mem_cons.mp (hsub hl) with h0 | h0
        · exact ⟨t, List.mem_cons_self _ _, h0⟩
        · rcases List.mem_map.mp h0 with ⟨rt, hrt, he⟩
          exact ⟨rt, List.mem_cons_of_mem _ hrt, he.symm⟩
      · exact Or.inr ⟨rt, List.mem_cons_of_mem _ hrt, he⟩
    have liftSame : ∀ (st2 : LexState), ft ∈ lexGo rest st2 →
        st2.lineIdxs = st.lineIdxs →
        ft.location.line ∈ st.lineIdxs ∨
          ∃ rt ∈ t :: rest, ft.location.line = rt.lineIdx := by
      intro st2 hmem heq
      rcases ih st2 ft hmem with hl | ⟨rt, hrt, he⟩
      · exact Or.inl (heq ▸ hl)
      · exact Or.inr ⟨rt, List.mem_cons_of_mem _ hrt, he⟩
    cases st with
    | str l c acc =>
      rcases t with ⟨tl, tc, tv⟩ | ⟨tl, tc, tch⟩
      · cases tv <;> simp only [lexGo, List.mem_cons] at h
        case StringDelim =>
          rcases h with hft | hmem
          · subst hft
            exact Or.inl (by simp [LexState.lineIdxs])
          · exact lift .normal hmem (by simp [LexState.lineIdxs])
        all_goals exact liftSame (.str l c acc) h rfl
      · exact liftSame (.str l c (tch :: acc)) h rfl
    | word l c acc =>
      rcases t with ⟨tl, tc, tv⟩ | ⟨tl, tc, tch⟩
      · cases tv <;> simp only [lexGo, List.mem_cons] at h
        case StringDelim =>
          rcases h with hft | hmem
          · subst hft
            exact Or.inl (by simp [LexState.lineIdxs])
          · exact lift (.str tl tc []) hmem
              (by simp [LexState.lineIdxs, RawToken.lineIdx])
        all_goals {
          rcases h with hft | h2
          · subst hft
            exact Or.inl (by simp [LexState.lineIdxs])
          · rcases h2 with hft | hmem
            · subst hft
              exact Or.inr ⟨.AlreadyParsed tl tc _, List.mem_cons_self _ _, rfl⟩
            · exact lift .normal hmem (by simp [LexState.lineIdxs])
        }
      · by_cases hsp : tch = ' '
        · rw [show lexGo (RawToken.NotYetParsed tl tc tch :: rest) (.word l c acc) =
              ⟨classify_word acc.reverse, ⟨l, c⟩⟩ :: lexGo rest .normal from by
                simp [lexGo, hsp]] at h
          rcases List.mem_cons.mp h with hft | hmem
          · subst hft
            exact Or.inl (by simp [LexState.lineIdxs])
          · exact lift .normal hmem (by simp [LexState.lineIdxs])
        · by_cases hcm : tch = ','
          · rw [show lexGo (RawToken.NotYetParsed tl tc tch :: rest) (.word l c acc) =
                ⟨classify_word acc.reverse, ⟨l, c⟩⟩ ::
                  ⟨classify_word [], ⟨tl, tc⟩⟩ :: lexGo rest .normal from by
                  simp [lexGo, hsp, hcm]] at h
            rcases List.mem_cons.mp h with hft | h2
            · subst hft
              exact Or.inl (by simp [LexState.lineIdxs])
            · rcases List.mem_cons.mp h2 with hft | hmem
              · subst hft
                exact Or.inr ⟨.NotYetParsed tl tc tch, List.mem_cons_self _ _, rfl⟩
              · exact lift .normal hmem (by simp [LexState.lineIdxs])
          · rw [show lexGo (RawToken.NotYetParsed tl tc tch :: rest) (.word l c acc) =
                lexGo rest (.word l c (tch :: acc)) from by
                  simp [lexGo, hsp, hcm]] at h
            exact liftSame (.word l c (tch :: acc)) h rfl
    | normal =>
      rcases t with ⟨tl, tc, tv⟩ | ⟨tl, tc, tch⟩
      · cases tv <;> simp only [lexGo, List.mem_cons] at h
        case StringDelim =>
          exact lift (.str tl tc []) h
            (by simp [LexState.lineIdxs, RawToken.lineIdx])
        all_goals {
          rcases h with hft | hmem
          · subst hft
            exact Or.inr ⟨.AlreadyParsed tl tc _, List.mem_cons_self _ _, rfl⟩
          · exact lift .normal hmem (by simp [LexState.lineIdxs])
        }
      · by_cases hsp : tch = ' '
        · rw [show lexGo (RawToken.NotYetParsed tl tc tch :: rest) .normal =
              lexGo rest .normal from by simp [lexGo, hsp]] at h
          exact lift .normal h (by simp [LexState.lineIdxs])
        · by_cases hcm : tch = ','
          · rw [show lexGo (RawToken.NotYetParsed tl tc tch :: rest) .normal =
                ⟨classify_word [], ⟨tl, tc⟩⟩ :: lexGo rest .normal from by
                  simp [lexGo, hsp, hcm]] at h
            rcases List.mem_cons.mp h with hft | hmem
            · subst hft
              exact Or.inr ⟨.NotYetParsed tl tc tch, List.mem_cons_self _ _, rfl⟩
            · exact lift .normal hmem (by simp [LexState.lineIdxs])
          · rw [show lexGo (RawToken.NotYetParsed tl tc tch :: rest) .normal =
                lexGo rest (.word tl tc [tch]) from by simp [lexGo, hsp, hcm]] at h
            exact lift (.word tl tc [tch]) h
              (by simp [LexState.lineIdxs, RawToken.lineIdx])


/-- The line indices remembered in the pending-colon lookahead state. -/
def pendLineIdxs : Option (Nat × Nat) → List Nat
  | none => []
  | some (l, _) => [l]

theorem rawTokensGo_line_origin (cs : List (Nat × Nat × Char))
    (pend : Option (Nat × Nat)) :
    ∀ rt ∈ rawTokensGo cs pend,
      rt.lineIdx ∈ pendLineIdxs pend ∨ ∃ p ∈ cs, rt.lineIdx = p.1 := by
  induction cs generalizing pend with
  | nil =>
    intro rt h
    cases pend with
    | none => simp [rawTokensGo] at h
    | some pl =>
      rcases pl with ⟨pl, pc⟩
      simp only [rawTokensGo, List.mem_singleton] at h
      subst h
      exact Or.inl (by simp [pendLineIdxs, RawToken.lineIdx])
  | cons p rest ih =>
    intro rt h
    rcases p with ⟨l, c, ch⟩
    have lift : ∀ pend2, rt ∈ rawTokensGo rest pend2 →
        pendLineIdxs pend2 ⊆ l :: rest.map (fun q => q.1) →
        rt.lineIdx ∈ pendLineIdxs pend ∨
          ∃ p ∈ (l, c, ch) :: rest, rt.lineIdx = p.1 := by
      intro pend2 hmem hsub
      rcases ih pend2 rt hmem with hl | ⟨q, hq, he⟩
      · right
        rcases List.mem_cons.mp (hsub hl) with h0 | h0
        · exact ⟨(l, c, ch), List.mem_cons_self _ _, h0⟩
        · rcases List.mem_map.mp h0 with ⟨q, hq, he⟩
          exact ⟨q, List.mem_cons_of_mem _ hq, he.symm⟩
      · exact Or.inr ⟨q, List.mem_cons_of_mem _ hq, he⟩
    cases pend with
    | some pl =>
      rcases pl with ⟨pl, pc⟩
      by_cases hc : ch = ':'
      · rw [show rawTokensGo ((l, c, ch) :: rest) (some (pl, pc)) =
            .AlreadyParsed pl pc .Definition :: rawTokensGo rest none from by
              simp [rawTokensGo, hc]] at h
        rcases List.mem_cons.mp h with hrt | hmem
        · subst hrt
          exact Or.inl (by simp [pendLineIdxs, RawToken.lineIdx])
        · exact lift none hmem (by simp [pendLineIdxs])
      · rw [show rawTokensGo ((l, c, ch) :: rest) (some (pl, pc)) =
            .AlreadyParsed pl pc .ValueAssignment ::
              (match charToken ch with
               | some t => .AlreadyParsed l c t :: rawTokensGo rest none
               | none => .NotYetParsed l c ch :: rawTokensGo rest none) from by
              simp [rawTokensGo, hc]] at h
        rcases List.mem_cons.mp h with hrt | h2
        · subst hrt
          exact Or.inl (by simp [pendLineIdxs, RawToken.lineIdx])
        · cases hct : charToken ch with
          | some t =>
            rw [hct] at h2
            rcases List.mem_cons.mp h2 with hrt | hmem
            · subst hrt
              exact Or.inr ⟨(l, c, ch), List.mem_cons_self _ _, rfl⟩
            · exact lift none hmem (by simp [pendLineIdxs])
          | none =>
            rw [hct] at h2
            rcases List.mem_cons.mp h2 with hrt | hmem
            · subst hrt
              exact Or.inr ⟨(l, c, ch), List.mem_cons_self _ _, rfl⟩
            · exact lift none hmem (by simp [pendLineIdxs])
    | none =>
      by_cases hc : ch = ':'
      · rw [show rawTokensGo ((l, c, ch) :: rest) none =
            rawTokensGo rest (some (l, c)) from by simp [rawTokensGo, hc]] at h
        exact lift (some (l, c)) h (by simp [pendLineIdxs])
      · rw [show rawTokensGo ((l, c, ch) :: rest) none =
            (match charToken ch with
             | some t => .AlreadyParsed l c t :: rawTokensGo rest none
             | none => .NotYetParsed l c ch :: rawTokensGo rest none) from by
              simp [rawTokensGo, hc]] at h
        cases hct : charToken ch with
        | some t =>
          rw [hct] at h
          rcases List.mem_cons.mp h with hrt | hmem
          · subst hrt
            exact Or.inr ⟨(l, c, ch), List.mem_cons_self _ _, rfl⟩
          · exact lift none hmem (by simp [pendLineIdxs])
        | none =>
          rw [hct] at h
          rcases List.mem_cons.mp h with hrt | hmem
          · subst hrt
            exact Or.inr ⟨(l, c, ch), List.mem_cons_self _ _, rfl⟩
          · exact lift none hmem (by simp [pendLineIdxs])

theorem allChars_origin (lines : List (List Char)) :
    ∀ p ∈ allChars lines,
      ∃ li, lines.get? p.1 = some li ∧ begins_comment li = false := by
  intro p hp
  unfold allChars at hp
  rcases List.mem_flatMap.mp hp with ⟨q, hq, hpq⟩
  rcases List.mem_filter.mp hq with ⟨hqe, hqc⟩
  rcases List.mem_map.mp hpq with ⟨r, hr, hpr⟩
  subst hpr
  refine ⟨q.2, ?_, by simpa using hqc⟩
  have : (q.1, q.2) ∈ lines.enum := by
    rcases q with ⟨q1, q2⟩
    exact hqe
  show lines.get? q.1 = some q.2
  rw [List.get?_eq_getElem?]
  exact List.mk_mem_enum_iff_getElem?.mp this


/-- Claim C5 amended: the exclusion test is starts_with without trimming,
so only a line whose two leading characters at column 0 are slashes is
excluded (indented comment lines are kept, see the counterexample); for
such an excluded line no token carrying that line index is produced. -/
theorem C5_amended (src : String) (i : Nat) (li : List Char)
    (h1 : (linesOf src).get? i = some li) (h2 : begins_comment li = true) :
    i ∉ (tokenize src).map (fun t => t.location.line) := by
  intro hmem
  rcases List.mem_map.mp hmem with ⟨ft, hft, hline⟩
  simp only [tokenize, lexContiguous, rawTokensOf] at hft
  rcases lexGo_line_origin _ .normal ft hft with hl | ⟨rt, hrt, he⟩
  · simp [LexState.lineIdxs] at hl
  · rcases rawTokensGo_line_origin _ none rt hrt with hl2 | ⟨p, hp, he2⟩
    · simp [pendLineIdxs] at hl2
    · rcases allChars_origin _ p hp with ⟨li2, hget, hcmt⟩
      have hpi : p.1 = i := by rw [← hline, he, he2]
      rw [hpi, h1] at hget
      cases hget
      rw [h2] at hcmt
      exact Bool.noConfusion hcmt

/-- Witness for C5 amended: a source whose first line is a comment yields
no token on line 0. -/
theorem C5_amended_witness :
    0 ∉ (tokenize "//ab\ncd").map (fun t => t.location.line) :=
  C5_amended "//ab\ncd" 0 ("//ab".toList) (by decide) (by decide)


/-! Arena invariants: identifier discipline and child-reference closure. -/

/-- The ids of the arena elements, in arena (push) order. -/
def elemIds (g : GlobalState) : List Nat := g.elements.map (fun e => e.id)

/-- The ids of the slides, in push order. -/
def slideIds (g : GlobalState) : List Nat := g.slides.map (fun s => s.id)

/-- An id is present in the arena. -/
def pres (g : GlobalState) (id : Nat) : Prop := ∃ e ∈ g.elements, e.id = id

/-- The arena invariant: element ids and slide ids are each strictly
increasing in assignment order, together they are a permutation of the
consecutive range 1..counter, and every child id referenced inside any
element's data is present in the arena. -/
def Inv (g : GlobalState) : Prop :=
  (elemIds g).Pairwise (· < ·) ∧ (slideIds g).Pairwise (· < ·) ∧
  (elemIds g ++ slideIds g).Perm (List.range' 1 g.unassigned_id) ∧
  ∀ e ∈ g.elements, ∀ cid ∈ e.data.childIds, pres g cid

theorem Inv_new : Inv GlobalState.new := by
  refine ⟨?_, ?_, ?_, ?_⟩ <;> simp [elemIds, slideIds, GlobalState.new]

theorem mem_ids_bound (g : GlobalState) (h : Inv g) (x : Nat)
    (hx : x ∈ elemIds g ++ slideIds g) : 1 ≤ x ∧ x ≤ g.unassigned_id := by
  have hxr : x ∈ List.range' 1 g.unassigned_id := (h.2.2.1.mem_iff).mp hx
  rcases List.mem_range'.mp hxr with ⟨i, hi, he⟩
  omega

theorem pres_mono (g g1 : GlobalState) (hsub : ∀ e ∈ g.elements, e ∈ g1.elements)
    (id : Nat) (h : pres g id) : pres g1 id := by
  rcases h with ⟨e, he, heq⟩
  exact ⟨e, hsub e he, heq⟩

/-- A permutation fact: appending a fresh element to the first list of an
appended pair extends the range permutation by one. -/
theorem perm_snoc_range (a b : List Nat) (n : Nat)
    (h : (a ++ b).Perm (List.range' 1 n)) :
    ((a ++ [n + 1]) ++ b).Perm (List.range' 1 (n + 1)) := by
  have h1 : ((a ++ [n + 1]) ++ b).Perm ((a ++ b) ++ [n + 1]) := by
    rw [List.append_assoc, List.append_assoc]
    exact List.Perm.append_left a List.perm_append_comm
  have h2 : ((a ++ b) ++ [n + 1]).Perm (List.range' 1 n ++ [n + 1]) :=
    h.append_right [n + 1]
  have h3 : List.range' 1 (n + 1) = List.range' 1 n ++ [n + 1] := by
    rw [List.range'_1_concat]
    simp [Nat.add_comm]
  rw [h3]
  exact h1.trans h2

theorem push_element_ok (g : GlobalState) (data : AbstractElementData)
    (ty : ElementType) (nm : Option String) (id : Nat) (g1 : GlobalState)
    (h : g.push_element data ty nm = some (id, g1)) :
    id = g.unassigned_id + 1 ∧
    g1 = ⟨g.unassigned_id + 1, g.slides,
          g.elements ++ [⟨data, ty, g.unassigned_id + 1, nm⟩]⟩ := by
  unfold GlobalState.push_element GlobalState.generate_id at h
  by_cases hov : g.unassigned_id + 1 < U32_MOD
  · rw [if_pos hov] at h
    simp only [Option.some_inj, Prod.mk.injEq] at h
    rcases h with ⟨hid, hg⟩
    subst hid
    subst hg
    exact ⟨rfl, rfl⟩
  · rw [if_neg hov] at h
    cases h

theorem push_element_inv (g : GlobalState) (data : AbstractElementData)
    (ty : ElementType) (nm : Option String) (id : Nat) (g1 : GlobalState)
    (hInv : Inv g) (hkids : ∀ cid ∈ data.childIds, pres g cid)
    (h : g.push_element data ty nm = some (id, g1)) :
    Inv g1 ∧ (∀ e ∈ g.elements, e ∈ g1.elements) ∧ g1.slides = g.slides ∧
      pres g1 id := by
  rcases push_element_ok g data ty nm id g1 h with ⟨hid, hg⟩
  subst hid
  subst hg
  have hsub : ∀ e ∈ g.elements,
      e ∈ g.elements ++ [(⟨data, ty, g.unassigned_id + 1, nm⟩ : AbstractElement)] :=
    fun e he => List.mem_append_left _ he
  refine ⟨⟨?_, ?_, ?_, ?_⟩, hsub, rfl, ?_⟩
  · simp only [elemIds, List.map_append, List.map_cons, List.map_nil]
    refine List.pairwise_append.mpr ⟨hInv.1, by simp, ?_⟩
    intro x hx y hy
    simp only [List.mem_singleton] at hy
    subst hy
    have := mem_ids_bound g hInv x (List.mem_append_left _ hx)
    omega
  · exact hInv.2.1
  · simp only [elemIds, slideIds, List.map_append, List.map_cons, List.map_nil]
    exact perm_snoc_range (elemIds g) (slideIds g) g.unassigned_id hInv.2.2.1
  · intro e he cid hcid
    rcases List.mem_append.mp he with hold | hnew
    · exact pres_mono g _ hsub cid (hInv.2.2.2 e hold cid hcid)
    · simp only [List.mem_singleton] at hnew
      subst hnew
      exact pres_mono g _ hsub cid (hkids cid hcid)
  · exact ⟨⟨data, ty, g.unassigned_id + 1, nm⟩,
      List.mem_append_right _ (List.mem_singleton_self _), rfl⟩

theorem slide_make_push_inv (g : GlobalState) (content : Nat) (styles : StyleMap)
    (sl : Slide) (g1 : GlobalState) (hInv : Inv g)
    (h : Slide.make g content styles = some (sl, g1)) :
    Inv (g1.push_slide sl) ∧ (g1.push_slide sl).elements = g.elements := by
  unfold Slide.make GlobalState.generate_id at h
  by_cases hov : g.unassigned_id + 1 < U32_MOD
  · rw [if_pos hov] at h
    simp only [Option.some_inj, Prod.mk.injEq] at h
    rcases h with ⟨hsl, hg⟩
    subst hsl
    subst hg
    refine ⟨⟨hInv.1, ?_, ?_, ?_⟩, rfl⟩
    · simp only [GlobalState.push_slide, slideIds, List.map_append,
        List.map_cons, List.map_nil]
      refine List.pairwise_append.mpr ⟨hInv.2.1, by simp, ?_⟩
      intro x hx y hy
      simp only [List.mem_singleton] at hy
      subst hy
      have := mem_ids_bound g hInv x (List.mem_append_right _ hx)
      omega
    · simp only [GlobalState.push_slide, elemIds, slideIds, List.map_append,
        List.map_cons, List.map_nil]
      rw [← List.append_assoc]
      have h3 : List.range' 1 (g.unassigned_id + 1) =
          List.range' 1 g.unassigned_id ++ [g.unassigned_id + 1] := by
        rw [List.range'_1_concat]
        simp [Nat.add_comm]
      rw [h3]
      exact hInv.2.2.1.append_right _
    · intro e he cid hcid
      exact hInv.2.2.2 e he cid hcid
  · rw [if_neg hov] at h
    cases h


/-- The conclusion shape of the parser invariant lemmas. -/
def ParseOkInv (g g1 : GlobalState) (id : Nat) : Prop :=
  Inv g1 ∧ (∀ e ∈ g.elements, e ∈ g1.elements) ∧ g1.slides = g.slides ∧ pres g1 id

theorem parseChildrenWith_inv
    (p : List FatToken → GlobalState → PRes (Nat × GlobalState × List FatToken))
    (hp : ∀ toks g id g1 rest, Inv g → p toks g = .ok (id, g1, rest) →
      ParseOkInv g g1 id)
    (groups : List (List FatToken)) (g : GlobalState) (ids : List Nat)
    (g1 : GlobalState) (hInv : Inv g)
    (h : parseChildrenWith p groups g = .ok (ids, g1)) :
    Inv g1 ∧ (∀ e ∈ g.elements, e ∈ g1.elements) ∧ g1.slides = g.slides ∧
      ∀ i ∈ ids, pres g1 i := by
  induction groups generalizing g ids with
  | nil =>
    simp only [parseChildrenWith, PRes.ok.injEq, Prod.mk.injEq] at h
    rcases h with ⟨hids, hg⟩
    subst hids
    subst hg
    exact ⟨hInv, fun e he => he, rfl, by simp⟩
  | cons grp rest ih =>
    unfold parseChildrenWith at h
    cases hpr : p grp g with
    | err e => rw [hpr] at h; cases h
    | panic d => rw [hpr] at h; cases h
    | ok v =>
      rcases v with ⟨cid, g2, rest2⟩
      rw [hpr] at h
      dsimp only at h
      rcases hp grp g cid g2 rest2 hInv hpr with ⟨hInv2, hsub2, hsl2, hpres2⟩
      cases hrec : parseChildrenWith p rest g2 with
      | err e => rw [hrec] at h; cases h
      | panic d => rw [hrec] at h; cases h
      | ok w =>
        rcases w with ⟨cids, g3⟩
        rw [hrec] at h
        simp only [PRes.ok.injEq, Prod.mk.injEq] at h
        rcases h with ⟨hids, hg⟩
        subst hids
        subst hg
        rcases ih g2 cids hInv2 hrec with ⟨hInv3, hsub3, hsl3, hpres3⟩
        refine ⟨hInv3, fun e he => hsub3 e (hsub2 e he), hsl3.trans hsl2, ?_⟩
        intro i hi
        rcases List.mem_cons.mp hi with hi0 | hi1
        · subst hi0
          exact pres_mono g2 g3 hsub3 i hpres2
        · exact hpres3 i hi1

theorem parseBodyWith_inv
    (p : List FatToken → GlobalState → PRes (Nat × GlobalState × List FatToken))
    (hp : ∀ toks g id g1 rest, Inv g → p toks g = .ok (id, g1, rest) →
      ParseOkInv g g1 id)
    (maybe_name : Option String) (el_type : ElementType) (toks : List FatToken)
    (g : GlobalState) (id : Nat) (g1 : GlobalState) (after : List FatToken)
    (hInv : Inv g)
    (h : parseBodyWith p maybe_name el_type toks g = .ok (id, g1, after)) :
    ParseOkInv g g1 id := by
  unfold parseBodyWith at h
  cases htb : takeBody toks 1 with
  | err e => rw [htb] at h; cases h
  | panic d => rw [htb] at h; cases h
  | ok bp =>
    rcases bp with ⟨content_tokens, after2⟩
    rw [htb] at h
    dsimp only at h
    cases el_type
    case ElNone =>
      dsimp only at h
      cases hpe : g.push_element .None .ElNone maybe_name with
      | none => rw [hpe] at h; cases h
      | some r =>
        rcases r with ⟨id2, g2⟩
        rw [hpe] at h
        simp only [PRes.ok.injEq, Prod.mk.injEq] at h
        rcases h with ⟨hid, hg, ha⟩
        subst hid; subst hg
        exact push_element_inv g _ _ _ _ _ hInv (by simp [AbstractElementData.childIds]) hpe
    case Text =>
      dsimp only at h
      cases content_tokens with
      | nil => cases h
      | cons t0 rest0 =>
        rcases t0 with ⟨tok0, loc0⟩
        cases tok0 <;> try cases h
        case Value pv =>
          cases pv <;> try cases h
          case String str =>
            dsimp only at h
            cases hpe : g.push_element (.Text str) .Text maybe_name with
            | none => rw [hpe] at h; cases h
            | some r =>
              rcases r with ⟨id2, g2⟩
              rw [hpe] at h
              simp only [PRes.ok.injEq, Prod.mk.injEq] at h
              rcases h with ⟨hid, hg, ha⟩
              subst hid; subst hg
              exact push_element_inv g _ _ _ _ _ hInv
                (by simp [AbstractElementData.childIds]) hpe
    case Code =>
      dsimp only at h
      cases content_tokens with
      | nil => cases h
      | cons t0 rest0 =>
        rcases t0 with ⟨tok0, loc0⟩
        cases tok0 <;> try cases h
        case Value pv =>
          cases pv <;> try cases h
          case String str =>
            dsimp only at h
            cases hpe : g.push_element (.Code str) .Code maybe_name with
            | none => rw [hpe] at h; cases h
            | some r =>
              rcases r with ⟨id2, g2⟩
              rw [hpe] at h
              simp only [PRes.ok.injEq, Prod.mk.injEq] at h
              rcases h with ⟨hid, hg, ha⟩
              subst hid; subst hg
              exact push_element_inv g _ _ _ _ _ hInv
                (by simp [AbstractElementData.childIds]) hpe
    case Image =>
      dsimp only at h
      cases content_tokens with
      | nil => cases h
      | cons t0 rest0 =>
        rcases t0 with ⟨tok0, loc0⟩
        cases tok0 <;> try cases h
        case Value pv =>
          cases pv <;> try cases h
          case String str =>
            dsimp only at h
            cases hpe : g.push_element (.Image str) .Image maybe_name with
            | none => rw [hpe] at h; cases h
            | some r =>
              rcases r with ⟨id2, g2⟩
              rw [hpe] at h
              simp only [PRes.ok.injEq, Prod.mk.injEq] at h
              rcases h with ⟨hid, hg, ha⟩
              subst hid; subst hg
              exact push_element_inv g _ _ _ _ _ hInv
                (by simp [AbstractElementData.childIds]) hpe
    case Centre =>
      dsimp only at h
      cases hpc : p content_tokens g with
      | err e => rw [hpc] at h; cases h
      | panic d => rw [hpc] at h; cases h
      | ok v =>
        rcases v with ⟨cid, g2, rest2⟩
        rw [hpc] at h
        dsimp only at h
        rcases hp content_tokens g cid g2 rest2 hInv hpc with
          ⟨hInv2, hsub2, hsl2, hpres2⟩
        cases hpe : g2.push_element (.Centre cid) .Centre maybe_name with
        | none => rw [hpe] at h; cases h
        | some r =>
          rcases r with ⟨id2, g3⟩
          rw [hpe] at h
          simp only [PRes.ok.injEq, Prod.mk.injEq] at h
          rcases h with ⟨hid, hg, ha⟩
          subst hid; subst hg
          rcases push_element_inv g2 _ _ _ _ _ hInv2
            (by simpa [AbstractElementData.childIds] using hpres2) hpe with
            ⟨hInv3, hsub3, hsl3, hpres3⟩
          exact ⟨hInv3, fun e he => hsub3 e (hsub2 e he), hsl3.trans hsl2, hpres3⟩
    case Padding =>
      dsimp only at h
      cases hpc : p content_tokens g with
      | err e => rw [hpc] at h; cases h
      | panic d => rw [hpc] at h; cases h
      | ok v =>
        rcases v with ⟨cid, g2, rest2⟩
        rw [hpc] at h
        dsimp only at h
        rcases hp content_tokens g cid g2 rest2 hInv hpc with
          ⟨hInv2, hsub2, hsl2, hpres2⟩
        cases hpe : g2.push_element (.Padding cid) .Padding maybe_name with
        | none => rw [hpe] at h; cases h
        | some r =>
          rcases r with ⟨id2, g3⟩
          rw [hpe] at h
          simp only [PRes.ok.injEq, Prod.mk.injEq] at h
          rcases h with ⟨hid, hg, ha⟩
          subst hid; subst hg
          rcases push_element_inv g2 _ _ _ _ _ hInv2
            (by simpa [AbstractElementData.childIds] using hpres2) hpe with
            ⟨hInv3, hsub3, hsl3, hpres3⟩
          exact ⟨hInv3, fun e he => hsub3 e (hsub2 e he), hsl3.trans hsl2, hpres3⟩
    case Row =>
      dsimp only at h
      cases hsc : split_child_elements content_tokens with
      | err e => rw [hsc] at h; cases h
      | panic d => rw [hsc] at h; cases h
      | ok groups =>
        rw [hsc] at h
        dsimp only at h
        cases hpc : parseChildrenWith p groups g with
        | err e => rw [hpc] at h; cases h
        | panic d => rw [hpc] at h; cases h
        | ok v =>
          rcases v with ⟨cids, g2⟩
          rw [hpc] at h
          dsimp only at h
          rcases parseChildrenWith_inv p hp groups g cids g2 hInv hpc with
            ⟨hInv2, hsub2, hsl2, hpres2⟩
          cases hpe : g2.push_element (.Row cids) .Row maybe_name with
          | none => rw [hpe] at h; cases h
          | some r =>
            rcases r with ⟨id2, g3⟩
            rw [hpe] at h
            simp only [PRes.ok.injEq, Prod.mk.injEq] at h
            rcases h with ⟨hid, hg, ha⟩
            subst hid; subst hg
            rcases push_element_inv g2 _ _ _ _ _ hInv2
              (by simpa [AbstractElementData.childIds] using hpres2) hpe with
              ⟨hInv3, hsub3, hsl3, hpres3⟩
            exact ⟨hInv3, fun e he => hsub3 e (hsub2 e he), hsl3.trans hsl2, hpres3⟩
    case Col =>
      dsimp only at h
      cases hsc : split_child_elements content_tokens with
      | err e => rw [hsc] at h; cases h
      | panic d => rw [hsc] at h; cases h
      | ok groups =>
        rw [hsc] at h
        dsimp only at h
        cases hpc : parseChildrenWith p groups g with
        | err e => rw [hpc] at h; cases h
        | panic d => rw [hpc] at h; cases h
        | ok v =>
          rcases v with ⟨cids, g2⟩
          rw [hpc] at h
          dsimp only at h
          rcases parseChildrenWith_inv p hp groups g cids g2 hInv hpc with
            ⟨hInv2, hsub2, hsl2, hpres2⟩
          cases hpe : g2.push_element (.Col cids) .Col maybe_name with
          | none => rw [hpe] at h; cases h
          | some r =>
            rcases r with ⟨id2, g3⟩
            rw [hpe] at h
            simp only [PRes.ok.injEq, Prod.mk.injEq] at h
            rcases h with ⟨hid, hg, ha⟩
            subst hid; subst hg
            rcases push_element_inv g2 _ _ _ _ _ hInv2
              (by simpa [AbstractElementData.childIds] using hpres2) hpe with
              ⟨hInv3, hsub3, hsl3, hpres3⟩
            exact ⟨hInv3, fun e he => hsub3 e (hsub2 e he), hsl3.trans hsl2, hpres3⟩

theorem parse_content_definition_inv (fuel : Nat) :
    ∀ (tokens : List FatToken) (g : GlobalState) (id : Nat) (g1 : GlobalState)
      (rest : List FatToken), Inv g →
      parse_content_definition fuel tokens g = .ok (id, g1, rest) →
      ParseOkInv g g1 id := by
  induction fuel with
  | zero =>
    intro tokens g id g1 rest hInv h
    cases h
  | succ fuel ih =>
    intro tokens g id g1 rest hInv h
    unfold parse_content_definition at h
    repeat' split at h
    all_goals first
      | cases h
      | exact parseBodyWith_inv (parse_content_definition fuel) ih
          _ _ _ _ _ _ _ hInv h


theorem loadSlides_inv (fuel : Nat) (groups : List (List FatToken))
    (g gfin : GlobalState) (hInv : Inv g)
    (h : loadSlides fuel groups g = .ok gfin) : Inv gfin := by
  induction groups generalizing g with
  | nil =>
    simp only [loadSlides, PRes.ok.injEq] at h
    subst h
    exact hInv
  | cons slide_tokens rest ih =>
    unfold loadSlides at h
    cases hpr : parse_content_definition fuel slide_tokens g with
    | err e => rw [hpr] at h; cases h
    | panic d => rw [hpr] at h; cases h
    | ok v =>
      rcases v with ⟨root, g2, remaining⟩
      rw [hpr] at h
      dsimp only at h
      rcases parse_content_definition_inv fuel slide_tokens g root g2
        remaining hInv hpr with ⟨hInv2, hsub2, hsl2, hpres2⟩
      cases hps : parse_styles remaining with
      | err e => rw [hps] at h; cases h
      | panic d => rw [hps] at h; cases h
      | ok sm =>
        rw [hps] at h
        dsimp only at h
        cases hsm : Slide.make g2 root sm with
        | none => rw [hsm] at h; cases h
        | some r =>
          rcases r with ⟨sl, g3⟩
          rw [hsm] at h
          dsimp only at h
          rcases slide_make_push_inv g2 root sm sl g3 hInv2 hsm with ⟨hInv3, _⟩
          exact ih _ hInv3 h

/-- Every successfully loaded document satisfies the arena invariant. -/
theorem load_inv (fuel : Nat) (src : String) (g : GlobalState)
    (h : load fuel src = .ok g) : Inv g :=
  loadSlides_inv fuel (groupSlides (tokenize src)) GlobalState.new g Inv_new h

/-- Claim C7: for every successful load, element identifiers are assigned
in strictly increasing consecutive order starting at 1 (together with the
slide ids they form exactly the range 1..counter), identifier 0 is never
assigned to an element or a slide, and no identifier is ever reused. -/
theorem C7_id_discipline (fuel : Nat) (src : String) (g : GlobalState)
    (h : load fuel src = .ok g) :
    (elemIds g).Pairwise (· < ·) ∧ (slideIds g).Pairwise (· < ·) ∧
    (elemIds g ++ slideIds g).Perm (List.range' 1 g.unassigned_id) ∧
    0 ∉ elemIds g ∧ 0 ∉ slideIds g ∧ (elemIds g ++ slideIds g).Nodup := by
  have hInv := load_inv fuel src g h
  refine ⟨hInv.1, hInv.2.1, hInv.2.2.1, ?_, ?_, ?_⟩
  · intro h0
    have := mem_ids_bound g hInv 0 (List.mem_append_left _ h0)
    omega
  · intro h0
    have := mem_ids_bound g hInv 0 (List.mem_append_right _ h0)
    omega
  · exact hInv.2.2.1.nodup_iff.mpr (List.nodup_range' _ _)

/-- A concrete loaded document used by the invariant witnesses. -/
def exDoc : GlobalState :=
  match load 32 "[ none() ]" with
  | .ok g => g
  | _ => GlobalState.new

/-- Witness for C7 at the single-slide document "[ none() ]". -/
theorem C7_id_discipline_witness :
    (elemIds exDoc).Pairwise (· < ·) ∧ (slideIds exDoc).Pairwise (· < ·) ∧
    (elemIds exDoc ++ slideIds exDoc).Perm
      (List.range' 1 exDoc.unassigned_id) ∧
    0 ∉ elemIds exDoc ∧ 0 ∉ slideIds exDoc ∧
    (elemIds exDoc ++ slideIds exDoc).Nodup :=
  C7_id_discipline 32 "[ none() ]" exDoc rfl

/-- Decidable form of the child-reference closure of the arena. -/
def childrenClosedB (g : GlobalState) : Bool :=
  g.elements.all (fun e =>
    (e.data.childIds).all (fun cid => g.elements.any (fun e2 => e2.id = cid)))

/-- Claim C8: after every successful load, every ElementID referenced as a
child inside any element's data (Row and Col children, Centre and Padding
child) corresponds to an element present in the arena. -/
theorem C8_children_in_arena (fuel : Nat) (src : String) (g : GlobalState)
    (h : load fuel src = .ok g) : childrenClosedB g = true := by
  have hInv := load_inv fuel src g h
  unfold childrenClosedB
  rw [List.all_eq_true]
  intro e he
  rw [List.all_eq_true]
  intro cid hcid
  rcases hInv.2.2.2 e he cid hcid with ⟨e2, he2, heq⟩
  rw [List.any_eq_true]
  exact ⟨e2, he2, by simp [heq]⟩

/-- A concrete loaded document with nested containers. -/
def exDocRow : GlobalState :=
  match load 32 "[ row( text(\"a\"), col( text(\"b\"), text(\"c\") ) ) ]" with
  | .ok g => g
  | _ => GlobalState.new

/-- Witness for C8 at the nested row and col document. -/
theorem C8_children_in_arena_witness : childrenClosedB exDocRow = true :=
  C8_children_in_arena 32 "[ row( text(\"a\"), col( text(\"b\"), text(\"c\") ) ) ]"
    exDocRow rfl

/-- Claim C10: after every successful load, get_element_by_id returns Some
exactly for the identifiers of content elements in the arena; it returns
None for identifier 0, for identifiers never assigned, and for slide
identifiers (slides share the counter but live outside the arena). -/
theorem C10_get_element_by_id (fuel : Nat) (src : String) (g : GlobalState)
    (h : load fuel src = .ok g) :
    (∀ id, (g.get_element_by_id id).isSome ↔ id ∈ elemIds g) ∧
    g.get_element_by_id 0 = none ∧
    (∀ sl ∈ g.slides, g.get_element_by_id sl.id = none) := by
  have hInv := load_inv fuel src g h
  refine ⟨?_, ?_, ?_⟩
  · intro id
    unfold GlobalState.get_element_by_id
    rw [List.find?_isSome]
    constructor
    · rintro ⟨e, he, hp⟩
      exact List.mem_map.mpr ⟨e, he, by simpa using hp⟩
    · intro hm
      rcases List.mem_map.mp hm with ⟨e, he, heq⟩
      exact ⟨e, he, by simp [heq]⟩
  · unfold GlobalState.get_element_by_id
    rw [List.find?_eq_none]
    intro e he
    simp only [decide_eq_true_eq]
    intro h0
    have hb := mem_ids_bound g hInv 0
      (List.mem_append_left _ (List.mem_map.mpr ⟨e, he, h0⟩))
    omega
  · intro sl hsl
    unfold GlobalState.get_element_by_id
    rw [List.find?_eq_none]
    intro e he
    simp only [decide_eq_true_eq]
    intro heq
    have hnd : (elemIds g ++ slideIds g).Nodup :=
      hInv.2.2.1.nodup_iff.mpr (List.nodup_range' _ _)
    exact List.disjoint_of_nodup_append hnd
      (List.mem_map.mpr ⟨e, he, heq⟩) (List.mem_map.mpr ⟨sl, hsl, rfl⟩)

/-- Witness for C10: in the loaded document "[ none() ]", id 1 is an
element, id 0 yields None, and the slide id 2 yields None. -/
theorem C10_get_element_by_id_witness :
    (exDoc.get_element_by_id 1).isSome = true ∧
    exDoc.get_element_by_id 0 = none ∧
    exDoc.get_element_by_id 2 = none := by
  have hc := C10_get_element_by_id 32 "[ none() ]" exDoc rfl
  refine ⟨?_, hc.2.1, ?_⟩
  · exact (hc.1 1).mpr (by decide)
  · exact hc.2.2 ⟨2, 1, StyleMap.default⟩ (by decide)

end Folium
